import Mathlib

/-!
Verification of the cubic-spline path-smoothing core
(`gcopter/include/gcopter/cubic_spline.hpp`).

The C++ source is embedded shallowly:
* `double` is modelled as `ℚ` (exact arithmetic);
* the raw `double*` backing store of `BandedSystem` is modelled as a total
  function `ℤ → ℚ`, indexed by the exact pointer-offset expression
  `(i - j + upperBw) * N + j` of `operator()` (signed, as in C++);
* `Eigen` row/point containers are modelled as functions `ℕ → ℚ × ℚ`;
  `Eigen::Matrix::resize` leaves entries unspecified on a size change, the
  model zero-fills — every row is fully overwritten before it is read;
* C++ `for` loops become folds over `List.range` / `List.range'`.
-/

/-- 2D point / row vector (the `Eigen::Vector2d` rows of the spline code). -/
abbrev Vec2 : Type := ℚ × ℚ

/-- `Eigen::Vector2d::dot`. -/
def dot (u v : Vec2) : ℚ := u.1 * v.1 + u.2 * v.2

/-- `Eigen::Vector2d::squaredNorm`. -/
def sqNorm (u : Vec2) : ℚ := dot u u

/-- Fold over the C++ loop `for (i = lo; i <= hi; ++i)` (empty when `hi < lo`,
provided `hi + 1 - lo` truncates to `0`, which holds at every use site). -/
def foldIdx {α : Type} (lo hi : ℕ) (f : ℕ → α → α) (x : α) : α :=
  (List.range' lo (hi + 1 - lo)).foldl (fun a i => f i a) x

/-- `(i, j)` lies in the band: `i - j ≤ p` (at most `p` below the diagonal)
and `j - i ≤ q` (at most `q` above). -/
def inBand (p q i j : ℕ) : Prop :=
  (i : ℤ) - (j : ℤ) ≤ (p : ℤ) ∧ (j : ℤ) - (i : ℤ) ≤ (q : ℤ)

instance (p q i j : ℕ) : Decidable (inBand p q i j) := by
  unfold inBand; infer_instance

/-- The banded linear system `A` of `cubic_spline.hpp`:
size `N`, band widths `lowerBw`/`upperBw`, flat backing store `ptrData`. -/
structure BandedSystem where
  N : ℕ
  lowerBw : ℕ
  upperBw : ℕ
  ptrData : ℤ → ℚ

namespace BandedSystem

/-- The pointer offset `(i - j + upperBw) * N + j` used by `operator()`. -/
def offsetOf (S : BandedSystem) (i j : ℕ) : ℤ :=
  ((i : ℤ) - (j : ℤ) + (S.upperBw : ℤ)) * (S.N : ℤ) + (j : ℤ)

/-- `operator()(i, j)` as a read. -/
def get (S : BandedSystem) (i j : ℕ) : ℚ :=
  S.ptrData (S.offsetOf i j)

/-- `operator()(i, j)` as a write. -/
def set (S : BandedSystem) (i j : ℕ) (v : ℚ) : BandedSystem :=
  { S with ptrData := Function.update S.ptrData (S.offsetOf i j) v }

/-- `create(n, p, q)`: destroys any previous storage and allocates a fresh
zero-filled store of `n * (p + q + 1)` entries (`std::fill_n`). -/
def create (_S : BandedSystem) (n p q : ℕ) : BandedSystem :=
  { N := n, lowerBw := p, upperBw := q, ptrData := fun _ => 0 }

/-- The number of allocated entries, `N * (lowerBw + upperBw + 1)`. -/
def actualSize (S : BandedSystem) : ℕ :=
  S.N * (S.lowerBw + S.upperBw + 1)

/-- The matrix represented by the banded storage: in-band entries inside the
`N × N` block read through `operator()`, everything else is logically zero. -/
def entry (S : BandedSystem) (i j : ℕ) : ℚ :=
  if i < S.N ∧ j < S.N ∧ inBand S.lowerBw S.upperBw i j then S.get i j else 0

/-- One pivot column `k` of `factorizeLU`: divide the sub-diagonal column
entries by the pivot, then update the trailing block. -/
def factorizeStep (k : ℕ) (S : BandedSystem) : BandedSystem :=
  let iM := min (k + S.lowerBw) (S.N - 1)
  let cVl := S.get k k
  let S1 := foldIdx (k + 1) iM
    (fun i T => if T.get i k ≠ 0 then T.set i k (T.get i k / cVl) else T) S
  let jM := min (k + S.upperBw) (S.N - 1)
  foldIdx (k + 1) jM
    (fun j T =>
      let c := T.get k j
      if c ≠ 0 then
        foldIdx (k + 1) iM
          (fun i T2 =>
            if T2.get i k ≠ 0 then T2.set i j (T2.get i j - T2.get i k * c)
            else T2) T
      else T) S1

/-- `factorizeLU()`: banded in-place LU factorization without pivoting,
pivot columns `k = 0 .. N-2`. -/
def factorizeLU (S : BandedSystem) : BandedSystem :=
  (List.range (S.N - 1)).foldl (fun T k => factorizeStep k T) S

variable {V : Type} [AddCommGroup V] [Module ℚ V]

/-- `solve(b)`: forward substitution through the stored multipliers, then
back substitution through the stored upper factor; solves `A·x = b` in place.
Generic in the row type `V`, as the C++ template is generic in `EIGENMAT`. -/
def solve (S : BandedSystem) (b : ℕ → V) : ℕ → V :=
  let b1 := (List.range S.N).foldl
    (fun c j =>
      foldIdx (j + 1) (min (j + S.lowerBw) (S.N - 1))
        (fun i c2 =>
          if S.get i j ≠ 0 then Function.update c2 i (c2 i - S.get i j • c2 j)
          else c2) c) b
  ((List.range S.N).reverse).foldl
    (fun c j =>
      let c1 := Function.update c j ((S.get j j)⁻¹ • c j)
      -- for (i = max(0, j - upperBw); i <= j - 1; ++i): empty when j = 0
      (List.range' (j - S.upperBw) (j - (j - S.upperBw))).foldl
        (fun c2 i =>
          if S.get i j ≠ 0 then Function.update c2 i (c2 i - S.get i j • c2 j)
          else c2) c1) b1

/-- `solveAdj(b)`: solves `Aᵀ·x = b` in place using the transposed band
ordering (forward through `Uᵀ` with the diagonal division, then backward
through `Lᵀ`). -/
def solveAdj (S : BandedSystem) (b : ℕ → V) : ℕ → V :=
  let b1 := (List.range S.N).foldl
    (fun c j =>
      let c1 := Function.update c j ((S.get j j)⁻¹ • c j)
      foldIdx (j + 1) (min (j + S.upperBw) (S.N - 1))
        (fun i c2 =>
          if S.get j i ≠ 0 then Function.update c2 i (c2 i - S.get j i • c2 j)
          else c2) c1) b
  ((List.range S.N).reverse).foldl
    (fun c j =>
      -- for (i = max(0, j - lowerBw); i <= j - 1; ++i): empty when j = 0
      (List.range' (j - S.lowerBw) (j - (j - S.lowerBw))).foldl
        (fun c2 i =>
          if S.get j i ≠ 0 then Function.update c2 i (c2 i - S.get j i • c2 j)
          else c2) c) b1

end BandedSystem

/-- The spline fitter: piece count `N`, boundary points, banded system `A`,
and the matrix `b` (right-hand sides during the solve, coefficient table
afterwards). -/
structure CubicSpline where
  N : ℕ
  headP : Vec2
  tailP : Vec2
  A : BandedSystem
  b : ℕ → Vec2

namespace CubicSpline

/-- A default-constructed fitter (all claims configure it before use). -/
def init : CubicSpline :=
  { N := 0, headP := 0, tailP := 0
    A := { N := 0, lowerBw := 0, upperBw := 0, ptrData := fun _ => 0 }
    b := fun _ => 0 }

/-- `setConditions(headPos, tailPos, pieceNum)`: store the boundary points and
piece count, size `b` to `N - 1` rows, create `A` as an `(N-1)`-sized banded
system with band widths `1, 1`. -/
def setConditions (S : CubicSpline) (headPos tailPos : Vec2) (pieceNum : ℕ) :
    CubicSpline :=
  { S with
    headP := headPos
    tailP := tailPos
    N := pieceNum
    b := fun _ => 0
    A := S.A.create (pieceNum - 1) 1 1 }

/-- The waypoint matrix `X` built at the start of `setInnerPoints`:
`X.col(0) = headP`, `X.col(N) = tailP`, `X.col(i) = inPs.col(i-1)` for
`0 < i < N`.  (The `tailP` write comes last in the `N = 0` corner, matching
the C++ assignment order `col(0) = headP; col(N) = tailP; ...`.) -/
def waypoints (S : CubicSpline) (inPs : ℕ → Vec2) : ℕ → Vec2 := fun i =>
  if i = S.N then S.tailP
  else if i = 0 then S.headP
  else if i < S.N then inPs (i - 1)
  else 0

/-- The assembly loop of `setInnerPoints`:
`for (i = 0; i < N - 1; ++i) { A(i,i) = 4; <off-diagonal writes>;
b.row(i) = 3*(X(i+2) - X(i)); }`. -/
def fillAb (S : CubicSpline) (inPs : ℕ → Vec2) : BandedSystem × (ℕ → Vec2) :=
  let X := S.waypoints inPs
  (List.range (S.N - 1)).foldl
    (fun (P : BandedSystem × (ℕ → Vec2)) i =>
      let A1 := P.1.set i i 4
      let A2 :=
        if i = 0 then A1.set i (i + 1) 1
        else if i = S.N - 2 then A1.set i (i - 1) 1
        else (A1.set i (i - 1) 1).set i (i + 1) 1
      (A2, Function.update P.2 i ((3 : ℚ) • (X (i + 2) - X i))))
    (S.A, S.b)

/-- The tangent matrix `D` of `setInnerPoints`:
`D = MatrixX2d::Zero(N+1, 2)`, then `D.row(i) = b.row(i-1)` for `1 ≤ i < N`
where `b` is the solution of the assembled system. -/
def tangents (S : CubicSpline) (inPs : ℕ → Vec2) : ℕ → Vec2 :=
  let bs := ((fillAb S inPs).1.factorizeLU).solve (fillAb S inPs).2
  fun i => if 1 ≤ i ∧ i < S.N then bs (i - 1) else 0

/-- The four coefficient rows of segment `i` as stored by `setInnerPoints`
(block row `4i + k`): `k = 0 ↦ d_i`, `k = 1 ↦ c_i`, `k = 2 ↦ b_i = D_i`,
`k = 3 ↦ a_i = X_i`. -/
def coeffRow (X D : ℕ → Vec2) (i k : ℕ) : Vec2 :=
  if k = 0 then (2 : ℚ) • (X i - X (i + 1)) + D i + D (i + 1)
  else if k = 1 then (3 : ℚ) • (X (i + 1) - X i) - (2 : ℚ) • D i - D (i + 1)
  else if k = 2 then D i
  else X i

/-- The coefficient-storage loop of `setInnerPoints`: after `b.resize(4N, 2)`
(contents unspecified, modelled zero), write the block rows
`4i .. 4i+3 = d_i, c_i, D_i, X_i` for each segment `i`. -/
def coeffTable (n : ℕ) (X D : ℕ → Vec2) : ℕ → Vec2 :=
  (List.range n).foldl
    (fun (c : ℕ → Vec2) i =>
      Function.update (Function.update (Function.update (Function.update c
        (4 * i) (coeffRow X D i 0))
        (4 * i + 1) (coeffRow X D i 1))
        (4 * i + 2) (coeffRow X D i 2))
        (4 * i + 3) (coeffRow X D i 3))
    (fun _ => 0)

/-- `setInnerPoints(inPs)`: assemble the tridiagonal system and right-hand
side, factorize and solve for the interior tangents `D`, then store the four
per-segment coefficient rows `d, c, b, a` into `b`. -/
def setInnerPoints (S : CubicSpline) (inPs : ℕ → Vec2) : CubicSpline :=
  { S with
    A := (fillAb S inPs).1.factorizeLU
    b := coeffTable S.N (S.waypoints inPs) (tangents S inPs) }

/-- `getStretchEnergy(energy)`: `energy += 4‖c‖² + 12‖d‖² + 12 d·c` per
segment, where the code reads `d = coeffMat.col(1)` and `c = coeffMat.col(0)`
from the stored block (whose rows are, in order, `d_i, c_i, b_i, a_i`). -/
def getStretchEnergy (S : CubicSpline) : ℚ :=
  (List.range S.N).foldl
    (fun energy i =>
      let d := S.b (4 * i + 1)
      let c := S.b (4 * i)
      energy + 4 * sqNorm c + 12 * sqNorm d + 12 * dot d c) 0

end CubicSpline

/-- Modelled from the spec: `cubic_curve.hpp` (the `CubicPolynomial` segment
container) is not under `src/`.  Per spec §3/§4.2/§6 a segment is a
`(duration, 2×4 coefficient matrix)` pair with columns in the order
`d, c, b, a`, and the segment position at `s ∈ [0,1]` is
`a + b·s + c·s² + d·s³`. -/
structure CubicPolynomial where
  duration : ℚ
  coeff : Fin 4 → Vec2

namespace CubicPolynomial

/-- Modelled from the spec: position of the segment at normalized arclength
`s`, namely `a + b·s + c·s² + d·s³` (columns `3,2,1,0` of `coeff`). -/
def posAt (P : CubicPolynomial) (s : ℚ) : Vec2 :=
  P.coeff 3 + s • P.coeff 2 + (s * s) • P.coeff 1 + (s * s * s) • P.coeff 0

/-- Modelled from the spec: first derivative `b + 2c·s + 3d·s²` of the
segment position at normalized arclength `s`. -/
def velAt (P : CubicPolynomial) (s : ℚ) : Vec2 :=
  P.coeff 2 + (2 * s) • P.coeff 1 + (3 * s * s) • P.coeff 0

end CubicPolynomial

/-- Modelled from the spec: the external curve container is an ordered
sequence of segments. -/
abbrev CubicCurve : Type := List CubicPolynomial

/-- `getCurve(curve)`: `curve.clear()` followed by
`curve.emplace_back(CubicPolynomial(1.0, b.block(4i,0,4,2).transpose()))`
for each segment `i = 0 .. N-1`. -/
def CubicSpline.getCurve (S : CubicSpline) (curve : CubicCurve) : CubicCurve :=
  let _ := curve   -- the prior contents are discarded by clear()
  (List.range S.N).foldl
    (fun c i => c ++ [⟨1, fun k => S.b (4 * i + (k : ℕ))⟩]) []

/-- The full fitting pipeline on a fresh fitter. -/
def fitSpline (h t : Vec2) (n : ℕ) (ps : ℕ → Vec2) : CubicSpline :=
  (CubicSpline.init.setConditions h t n).setInnerPoints ps

/-- From the spec's words (§4.2): `computeStretchEnergy` sums, over all
segments, `4‖c_i‖² + 12‖d_i‖² + 12(c_i·d_i)` where `c_i` and `d_i` are the
quadratic and cubic coefficient rows (stored at block rows `4i+1` and `4i`). -/
def specStretchEnergy (S : CubicSpline) : ℚ :=
  (List.range S.N).foldl
    (fun e i =>
      e + 4 * sqNorm (S.b (4 * i + 1)) + 12 * sqNorm (S.b (4 * i)) +
        12 * dot (S.b (4 * i + 1)) (S.b (4 * i))) 0

/-!
### Dense reference layer for the banded LU factorization

The factorization and substitution loops are related to a functional
elimination on total matrices `ℕ → ℕ → ℚ` (zero outside the `n × n` block and
outside the band), for which `L·U = A` and the substitution identities are
proved.
-/

section DenseLayer

variable {V : Type} [AddCommGroup V] [Module ℚ V]

/-- Matrix-vector product over rows/columns `0 .. n-1` (`V`-valued columns). -/
def mulVecN (n : ℕ) (A : ℕ → ℕ → ℚ) (x : ℕ → V) : ℕ → V :=
  fun i => ∑ j ∈ Finset.range n, A i j • x j

/-- Matrix-matrix product over the index range `0 .. n-1`. -/
def matMulN (n : ℕ) (A B : ℕ → ℕ → ℚ) : ℕ → ℕ → ℚ :=
  fun i j => ∑ t ∈ Finset.range n, A i t * B t j

/-- `M` vanishes outside the `n × n` block and outside the band `(p, q)`. -/
def BandedMat (n p q : ℕ) (M : ℕ → ℕ → ℚ) : Prop :=
  ∀ i j, n ≤ i ∨ n ≤ j ∨ ¬ inBand p q i j → M i j = 0

/-- One column of Doolittle elimination (the functional mirror of
`factorizeStep`): store multipliers in column `k`, update the trailing block. -/
def dstep (p q k : ℕ) (M : ℕ → ℕ → ℚ) : ℕ → ℕ → ℚ := fun a b =>
  if k < a ∧ a ≤ k + p ∧ b = k then M a k / M k k
  else if k < a ∧ a ≤ k + p ∧ k < b ∧ b ≤ k + q then
    M a b - M a k / M k k * M k b
  else M a b

/-- The elimination state after `k` pivot columns. -/
def delim (p q : ℕ) (M : ℕ → ℕ → ℚ) : ℕ → ℕ → ℕ → ℚ
  | 0 => M
  | k + 1 => dstep p q k (delim p q M k)

/-- The pivot used by column `k` of the elimination. -/
def pivAt (p q : ℕ) (M : ℕ → ℕ → ℚ) (k : ℕ) : ℚ :=
  delim p q M k k k

/-- All pivots of the elimination are nonzero. -/
def pivotsNZ (n p q : ℕ) (M : ℕ → ℕ → ℚ) : Prop :=
  ∀ k, k < n → pivAt p q M k ≠ 0

/-- Unit lower factor read off an elimination state, columns `< k` only. -/
def lowerPartAt (F : ℕ → ℕ → ℚ) (k : ℕ) : ℕ → ℕ → ℚ := fun i j =>
  if j < k ∧ j < i then F i j else if i = j then 1 else 0

/-- Upper factor read off an elimination state: the multiplier slots of
columns `< k` are masked to zero. -/
def upperPartAt (F : ℕ → ℕ → ℚ) (k : ℕ) : ℕ → ℕ → ℚ := fun i j =>
  if j < i ∧ j < k then 0 else F i j

/-- The unit lower factor `L` of the finished elimination. -/
def lowerFac (n p q : ℕ) (M : ℕ → ℕ → ℚ) : ℕ → ℕ → ℚ :=
  lowerPartAt (delim p q M (n - 1)) n

/-- The upper factor `U` of the finished elimination. -/
def upperFac (n p q : ℕ) (M : ℕ → ℕ → ℚ) : ℕ → ℕ → ℚ :=
  upperPartAt (delim p q M (n - 1)) n

/-- Strict diagonal dominance by rows of the trailing block `[k, n)`. -/
def sddRowFrom (k n : ℕ) (M : ℕ → ℕ → ℚ) : Prop :=
  ∀ i, k ≤ i → i < n →
    (∑ j ∈ Finset.Ico k n, if j = i then 0 else |M i j|) < |M i i|

/-- Strict diagonal dominance by columns of the trailing block `[k, n)`. -/
def sddColFrom (k n : ℕ) (M : ℕ → ℕ → ℚ) : Prop :=
  ∀ j, k ≤ j → j < n →
    (∑ i ∈ Finset.Ico k n, if i = j then 0 else |M i j|) < |M j j|

/-- Strict diagonal dominance by rows. -/
def sddRow (n : ℕ) (M : ℕ → ℕ → ℚ) : Prop := sddRowFrom 0 n M

/-- Strict diagonal dominance by columns. -/
def sddCol (n : ℕ) (M : ℕ → ℕ → ℚ) : Prop := sddColFrom 0 n M

/-- Functional mirror of the forward-substitution phase of `solve`. -/
def dfwd (n p : ℕ) (G : ℕ → ℕ → ℚ) (B : ℕ → V) : ℕ → V :=
  (List.range n).foldl
    (fun c j => fun a =>
      if j < a ∧ a ≤ min (j + p) (n - 1) then c a - G a j • c j else c a) B

/-- Functional mirror of the back-substitution phase of `solve`. -/
def dback (n q : ℕ) (G : ℕ → ℕ → ℚ) (B : ℕ → V) : ℕ → V :=
  ((List.range n).reverse).foldl
    (fun c j => fun a =>
      if a = j then (G j j)⁻¹ • c j
      else if j - q ≤ a ∧ a < j then c a - G a j • ((G j j)⁻¹ • c j)
      else c a) B

/-- Functional mirror of the forward phase of `solveAdj`. -/
def dfwdAdj (n q : ℕ) (G : ℕ → ℕ → ℚ) (B : ℕ → V) : ℕ → V :=
  (List.range n).foldl
    (fun c j => fun a =>
      if a = j then (G j j)⁻¹ • c j
      else if j < a ∧ a ≤ min (j + q) (n - 1) then c a - G j a • ((G j j)⁻¹ • c j)
      else c a) B

/-- Functional mirror of the backward phase of `solveAdj`. -/
def dbackAdj (n p : ℕ) (G : ℕ → ℕ → ℚ) (B : ℕ → V) : ℕ → V :=
  ((List.range n).reverse).foldl
    (fun c j => fun a =>
      if j - p ≤ a ∧ a < j then c a - G j a • c j else c a) B

/-- `dfwd` after its first `m` columns. -/
def dfwdPart (n p : ℕ) (G : ℕ → ℕ → ℚ) (B : ℕ → V) (m : ℕ) : ℕ → V :=
  (List.range m).foldl
    (fun c j => fun a => if j < a ∧ a ≤ min (j + p) (n - 1)
      then c a - G a j • c j else c a) B

/-- `dback` after processing columns `n-1, …, j`. -/
def dbackPart (n q : ℕ) (G : ℕ → ℕ → ℚ) (B : ℕ → V) (j : ℕ) : ℕ → V :=
  ((List.range' j (n - j)).reverse).foldl
    (fun c j2 => fun a =>
      if a = j2 then (G j2 j2)⁻¹ • c j2
      else if j2 - q ≤ a ∧ a < j2 then c a - G a j2 • ((G j2 j2)⁻¹ • c j2)
      else c a) B

/-- `dfwdAdj` after its first `m` columns. -/
def dfwdAdjPart (n q : ℕ) (G : ℕ → ℕ → ℚ) (B : ℕ → V) (m : ℕ) : ℕ → V :=
  (List.range m).foldl
    (fun c j => fun a =>
      if a = j then (G j j)⁻¹ • c j
      else if j < a ∧ a ≤ min (j + q) (n - 1)
        then c a - G j a • ((G j j)⁻¹ • c j)
      else c a) B

/-- `dbackAdj` after processing columns `n-1, …, j`. -/
def dbackAdjPart (n p : ℕ) (G : ℕ → ℕ → ℚ) (B : ℕ → V) (j : ℕ) : ℕ → V :=
  ((List.range' j (n - j)).reverse).foldl
    (fun c j2 => fun a =>
      if j2 - p ≤ a ∧ a < j2 then c a - G j2 a • c j2 else c a) B

end DenseLayer

/-!
## Lemmas: banded storage
-/

/-- Invariants propagate through `List.foldl`. -/
theorem foldl_induction {α β : Type} (P : α → Prop) (f : α → β → α) :
    ∀ (l : List β) (x : α), P x → (∀ a b, P a → P (f a b)) →
      P (l.foldl f x) := by
  intro l
  induction l with
  | nil => intro x hx _; exact hx
  | cons b t ih =>
      intro x hx hf
      exact ih (f x b) (hf x b hx) hf

namespace BandedSystem

theorem set_N (S : BandedSystem) (i j : ℕ) (v : ℚ) : (S.set i j v).N = S.N :=
  rfl

theorem set_lowerBw (S : BandedSystem) (i j : ℕ) (v : ℚ) :
    (S.set i j v).lowerBw = S.lowerBw := rfl

theorem set_upperBw (S : BandedSystem) (i j : ℕ) (v : ℚ) :
    (S.set i j v).upperBw = S.upperBw := rfl

theorem offsetOf_set (S : BandedSystem) (i j : ℕ) (v : ℚ) (a b : ℕ) :
    (S.set i j v).offsetOf a b = S.offsetOf a b := rfl

theorem get_set_self (S : BandedSystem) (i j : ℕ) (v : ℚ) :
    (S.set i j v).get i j = v := by
  simp [get, set, offsetOf, Function.update_same]

theorem get_set_ne (S : BandedSystem) {i j a b : ℕ} (v : ℚ)
    (h : S.offsetOf a b ≠ S.offsetOf i j) :
    (S.set i j v).get a b = S.get a b := by
  simp only [get, set, offsetOf_set]
  exact Function.update_noteq h v S.ptrData

theorem set_get_self (S : BandedSystem) (i j : ℕ) :
    S.set i j (S.get i j) = S := by
  cases S
  simp [set, get, Function.update_eq_self]

/-- Distinct in-band positions inside the `N × N` block have distinct
storage offsets. -/
theorem offsetOf_inj (S : BandedSystem) (hN : 0 < S.N) {i j a b : ℕ}
    (hj : j < S.N) (hb : b < S.N)
    (h1 : inBand S.lowerBw S.upperBw i j) (h2 : inBand S.lowerBw S.upperBw a b)
    (h : S.offsetOf i j = S.offsetOf a b) : i = a ∧ j = b := by
  unfold offsetOf at h
  obtain ⟨h1l, h1u⟩ := h1
  obtain ⟨h2l, h2u⟩ := h2
  have hmod : ∀ r jj : ℤ, (r * (S.N : ℤ) + jj) % (S.N : ℤ) = jj % (S.N : ℤ) := by
    intro r jj
    rw [add_comm, mul_comm]
    exact Int.add_mul_emod_self_left jj (S.N : ℤ) r
  have hjn : (j : ℤ) < (S.N : ℤ) := by exact_mod_cast hj
  have hbn : (b : ℤ) < (S.N : ℤ) := by exact_mod_cast hb
  have hjb : (j : ℤ) = (b : ℤ) := by
    have := congrArg (fun z => z % (S.N : ℤ)) h
    simp only [hmod] at this
    rwa [Int.emod_eq_of_lt (by positivity) hjn,
      Int.emod_eq_of_lt (by positivity) hbn] at this
  have hNne : ((S.N : ℤ)) ≠ 0 := by positivity
  have hrr : ((i : ℤ) - j + S.upperBw) = ((a : ℤ) - b + S.upperBw) := by
    have hmul : ((i : ℤ) - j + S.upperBw) * (S.N : ℤ)
        = ((a : ℤ) - b + S.upperBw) * (S.N : ℤ) := by omega
    exact mul_right_cancel₀ hNne hmul
  constructor
  · omega
  · omega

/-- Every in-band position inside the `N × N` block maps into the allocated
block of `N * (lowerBw + upperBw + 1)` offsets. -/
theorem offsetOf_mem_block (S : BandedSystem) {i j : ℕ} (hj : j < S.N)
    (h1 : inBand S.lowerBw S.upperBw i j) :
    0 ≤ S.offsetOf i j ∧
      S.offsetOf i j < (S.N : ℤ) * ((S.lowerBw : ℤ) + (S.upperBw : ℤ) + 1) := by
  unfold offsetOf
  obtain ⟨h1l, h1u⟩ := h1
  have hjn : (j : ℤ) < (S.N : ℤ) := by exact_mod_cast hj
  constructor
  · have hr : (0 : ℤ) ≤ ((i : ℤ) - j + S.upperBw) * (S.N : ℤ) :=
      mul_nonneg (by omega) (by positivity)
    omega
  · have hmul : ((i : ℤ) - j + S.upperBw) * (S.N : ℤ)
        ≤ ((S.lowerBw : ℤ) + (S.upperBw : ℤ)) * (S.N : ℤ) :=
      mul_le_mul_of_nonneg_right (by omega) (by positivity)
    have hring : (S.N : ℤ) * ((S.lowerBw : ℤ) + (S.upperBw : ℤ) + 1)
        = ((S.lowerBw : ℤ) + (S.upperBw : ℤ)) * (S.N : ℤ) + (S.N : ℤ) := by ring
    rw [hring]
    linarith

/-- Writing one in-band entry leaves every other in-band entry unchanged. -/
theorem get_set_ne_of_inBand (S : BandedSystem) (hN : 0 < S.N) {i j a b : ℕ}
    (v : ℚ) (hj : j < S.N) (hb : b < S.N)
    (h1 : inBand S.lowerBw S.upperBw i j) (h2 : inBand S.lowerBw S.upperBw a b)
    (hne : i ≠ a ∨ j ≠ b) :
    (S.set i j v).get a b = S.get a b := by
  refine S.get_set_ne v fun hoff => ?_
  obtain ⟨hia, hjb⟩ := S.offsetOf_inj hN hb hj h2 h1 hoff
  rcases hne with hne | hne
  · exact hne hia.symm
  · exact hne hjb.symm

end BandedSystem

/-!
## Lemmas: the coefficient table and the exported curve
-/

open CubicSpline

theorem coeffTable_succ (n : ℕ) (X D : ℕ → Vec2) :
    coeffTable (n + 1) X D =
      Function.update (Function.update (Function.update (Function.update
        (coeffTable n X D)
        (4 * n) (coeffRow X D n 0))
        (4 * n + 1) (coeffRow X D n 1))
        (4 * n + 2) (coeffRow X D n 2))
        (4 * n + 3) (coeffRow X D n 3) := by
  simp only [coeffTable]
  rw [List.range_succ, List.foldl_append, List.foldl_cons, List.foldl_nil]

theorem coeffTable_apply (X D : ℕ → Vec2) :
    ∀ n i k : ℕ, i < n → k < 4 →
      coeffTable n X D (4 * i + k) = coeffRow X D i k := by
  intro n
  induction n with
  | zero => intro i k hi _; omega
  | succ m ih =>
      intro i k hi hk
      rw [coeffTable_succ]
      by_cases him : i = m
      · subst him
        interval_cases k <;>
          simp [Function.update_apply, Function.update_same, Function.update_noteq]
      · have hi' : i < m := by omega
        rw [Function.update_noteq (by omega), Function.update_noteq (by omega),
          Function.update_noteq (by omega), Function.update_noteq (by omega)]
        exact ih i k hi' hk

theorem foldl_append_singleton {β : Type} (g : ℕ → β) :
    ∀ (l : List ℕ) (acc : List β),
      l.foldl (fun c i => c ++ [g i]) acc = acc ++ l.map g := by
  intro l
  induction l with
  | nil => intro acc; simp
  | cons x t ih => intro acc; simp [ih]

theorem getCurve_eq_map (S : CubicSpline) (cv : CubicCurve) :
    S.getCurve cv =
      (List.range S.N).map (fun i => ⟨1, fun k => S.b (4 * i + (k : ℕ))⟩) := by
  unfold CubicSpline.getCurve
  rw [foldl_append_singleton]
  simp

theorem getCurve_length (S : CubicSpline) (cv : CubicCurve) :
    (S.getCurve cv).length = S.N := by
  rw [getCurve_eq_map]
  simp

theorem getCurve_getD (S : CubicSpline) (cv : CubicCurve) (i : ℕ) (hi : i < S.N) :
    (S.getCurve cv).getD i ⟨0, fun _ => 0⟩ = ⟨1, fun k => S.b (4 * i + (k : ℕ))⟩ := by
  rw [getCurve_eq_map]
  rw [List.getD_eq_getElem _ _ (by simpa using hi)]
  simp

theorem setInnerPoints_N (S : CubicSpline) (ps : ℕ → Vec2) :
    (S.setInnerPoints ps).N = S.N := rfl

theorem setInnerPoints_b (S : CubicSpline) (ps : ℕ → Vec2) :
    (S.setInnerPoints ps).b = coeffTable S.N (S.waypoints ps) (tangents S ps) := rfl

theorem waypoints_zero (S : CubicSpline) (ps : ℕ → Vec2) (h : 0 < S.N) :
    S.waypoints ps 0 = S.headP := by
  simp [CubicSpline.waypoints]
  omega

theorem waypoints_top (S : CubicSpline) (ps : ℕ → Vec2) :
    S.waypoints ps S.N = S.tailP := by
  simp [CubicSpline.waypoints]

/-!
## Claims C9, C10, C7, C8
-/

/-- C9: `create` on an already-allocated `BandedSystem` installs fresh storage
(the previous allocation is released, a memory-level fact with no further
observable content), so a second `setConditions` with a different
`segmentCount` yields exactly the state of a freshly configured instance,
with backing storage sized `(N₂-1)·3`, and the subsequent fit coincides with
the fit of the freshly configured instance. -/
theorem reconfigure_matches_fresh_fit (S : CubicSpline) (h1 t1 h2 t2 : Vec2)
    (n1 n2 : ℕ) (ps : ℕ → Vec2) :
    ((S.setConditions h1 t1 n1).setConditions h2 t2 n2)
        = S.setConditions h2 t2 n2 ∧
    ((S.setConditions h1 t1 n1).setConditions h2 t2 n2).A.actualSize
        = (n2 - 1) * 3 ∧
    ((S.setConditions h1 t1 n1).setConditions h2 t2 n2).setInnerPoints ps
        = (S.setConditions h2 t2 n2).setInnerPoints ps := by
  refine ⟨rfl, ?_, rfl⟩
  simp [BandedSystem.actualSize, CubicSpline.setConditions, BandedSystem.create]

/-- C10: `getCurve` first clears the supplied container, so the result is
independent of its prior contents and holds exactly `N` segments in path
order, each of duration `1` whose four coefficient columns are the stored
rows `d_i, c_i, b_i, a_i`. -/
theorem getCurve_clears_and_writes_segments (h t : Vec2) (n : ℕ)
    (ps : ℕ → Vec2) (cv cv2 : CubicCurve) :
    (fitSpline h t n ps).getCurve cv = (fitSpline h t n ps).getCurve cv2 ∧
    ((fitSpline h t n ps).getCurve cv).length = n ∧
    ∀ i, i < n →
      ((fitSpline h t n ps).getCurve cv).getD i ⟨0, fun _ => 0⟩ =
        ⟨1, fun k =>
          coeffRow ((CubicSpline.init.setConditions h t n).waypoints ps)
            (tangents (CubicSpline.init.setConditions h t n) ps) i (k : ℕ)⟩ := by
  refine ⟨rfl, getCurve_length _ _, fun i hi => ?_⟩
  rw [getCurve_getD _ _ i hi]
  have hb : (fitSpline h t n ps).b =
      coeffTable n ((CubicSpline.init.setConditions h t n).waypoints ps)
        (tangents (CubicSpline.init.setConditions h t n) ps) := rfl
  congr 1
  funext k
  rw [hb, coeffTable_apply _ _ n i (k : ℕ) hi k.isLt]

theorem getCurve_clears_and_writes_segments_witness :
    ((fitSpline ((0 : ℚ), (0 : ℚ)) (1, 0) 2 (fun _ => (0, 0))).getCurve
        [⟨5, fun _ => (9, 9)⟩]).getD 0 ⟨0, fun _ => 0⟩ =
      ⟨1, fun k =>
        coeffRow ((CubicSpline.init.setConditions (0, 0) (1, 0) 2).waypoints
            (fun _ => (0, 0)))
          (tangents (CubicSpline.init.setConditions (0, 0) (1, 0) 2)
            (fun _ => (0, 0))) 0 (k : ℕ)⟩ :=
  (getCurve_clears_and_writes_segments (0, 0) (1, 0) 2 (fun _ => (0, 0))
    [⟨5, fun _ => (9, 9)⟩] []).2.2 0 (by norm_num)

theorem fitSpline_b (h t : Vec2) (n : ℕ) (ps : ℕ → Vec2) (i k : ℕ)
    (hi : i < n) (hk : k < 4) :
    (fitSpline h t n ps).b (4 * i + k) =
      coeffRow ((CubicSpline.init.setConditions h t n).waypoints ps)
        (tangents (CubicSpline.init.setConditions h t n) ps) i k :=
  coeffTable_apply _ _ n i k hi hk

/-- C7: the fitted curve starts at the head point and ends at the tail point:
segment `0` at `s = 0` evaluates to `headP` and segment `N-1` at `s = 1`
evaluates to `tailP`, for every interior point set. -/
theorem boundary_fidelity (h t : Vec2) (n : ℕ) (hn : 2 ≤ n) (ps : ℕ → Vec2)
    (cv : CubicCurve) :
    (((fitSpline h t n ps).getCurve cv).getD 0 ⟨0, fun _ => 0⟩).posAt 0 = h ∧
    (((fitSpline h t n ps).getCurve cv).getD (n - 1) ⟨0, fun _ => 0⟩).posAt 1
      = t := by
  have hN : (fitSpline h t n ps).N = n := rfl
  set X := (CubicSpline.init.setConditions h t n).waypoints ps with hX
  set D := tangents (CubicSpline.init.setConditions h t n) ps with hD
  have hv : ∀ i k : ℕ, i < n → k < 4 →
      (fitSpline h t n ps).b (4 * i + k) = coeffRow X D i k := fun i k hi hk =>
    fitSpline_b h t n ps i k hi hk
  have hX0 : X 0 = h := by
    rw [hX]
    rw [waypoints_zero _ _ (by simp [CubicSpline.setConditions]; omega)]
    rfl
  have hXn : X n = t := by
    rw [hX]
    exact waypoints_top _ _
  constructor
  · rw [getCurve_getD _ _ 0 (by rw [hN]; omega)]
    simp only [CubicPolynomial.posAt, show ((3 : Fin 4) : ℕ) = 3 from rfl,
      show ((2 : Fin 4) : ℕ) = 2 from rfl, show ((1 : Fin 4) : ℕ) = 1 from rfl,
      show ((0 : Fin 4) : ℕ) = 0 from rfl]
    rw [hv 0 3 (by omega) (by omega), hv 0 2 (by omega) (by omega),
      hv 0 1 (by omega) (by omega), hv 0 0 (by omega) (by omega)]
    simp only [coeffRow]
    norm_num
    exact hX0
  · rw [getCurve_getD _ _ (n - 1) (by rw [hN]; omega)]
    simp only [CubicPolynomial.posAt, show ((3 : Fin 4) : ℕ) = 3 from rfl,
      show ((2 : Fin 4) : ℕ) = 2 from rfl, show ((1 : Fin 4) : ℕ) = 1 from rfl,
      show ((0 : Fin 4) : ℕ) = 0 from rfl]
    rw [hv (n - 1) 3 (by omega) (by omega), hv (n - 1) 2 (by omega) (by omega),
      hv (n - 1) 1 (by omega) (by omega), hv (n - 1) 0 (by omega) (by omega)]
    simp only [coeffRow]
    norm_num
    rw [show n - 1 + 1 = n from by omega, ← hXn]
    module

theorem boundary_fidelity_witness :
    ((((fitSpline ((0 : ℚ), (0 : ℚ)) (1, 1) 2 (fun _ => (0, 0))).getCurve
          []).getD 0 ⟨0, fun _ => 0⟩).posAt 0 = ((0 : ℚ), (0 : ℚ))) ∧
    ((((fitSpline ((0 : ℚ), (0 : ℚ)) (1, 1) 2 (fun _ => (0, 0))).getCurve
          []).getD (2 - 1) ⟨0, fun _ => 0⟩).posAt 1 = ((1 : ℚ), (1 : ℚ))) :=
  boundary_fidelity (0, 0) (1, 1) 2 (by norm_num) (fun _ => (0, 0)) []

/-- C8: the first derivative of the fitted curve is continuous at every
interior junction: the derivative of segment `i-1` at `s = 1` equals the
derivative of segment `i` at `s = 0` (both equal the solved tangent `D i`). -/
theorem junction_velocity_continuity (h t : Vec2) (n : ℕ) (ps : ℕ → Vec2)
    (cv : CubicCurve) (i : ℕ) (h1 : 1 ≤ i) (h2 : i < n) :
    (((fitSpline h t n ps).getCurve cv).getD (i - 1) ⟨0, fun _ => 0⟩).velAt 1 =
    (((fitSpline h t n ps).getCurve cv).getD i ⟨0, fun _ => 0⟩).velAt 0 := by
  have hN : (fitSpline h t n ps).N = n := rfl
  set X := (CubicSpline.init.setConditions h t n).waypoints ps with hX
  set D := tangents (CubicSpline.init.setConditions h t n) ps with hD
  have hv : ∀ a k : ℕ, a < n → k < 4 →
      (fitSpline h t n ps).b (4 * a + k) = coeffRow X D a k := fun a k ha hk =>
    fitSpline_b h t n ps a k ha hk
  rw [getCurve_getD _ _ (i - 1) (by rw [hN]; omega),
    getCurve_getD _ _ i (by rw [hN]; omega)]
  simp only [CubicPolynomial.velAt, show ((2 : Fin 4) : ℕ) = 2 from rfl,
    show ((1 : Fin 4) : ℕ) = 1 from rfl, show ((0 : Fin 4) : ℕ) = 0 from rfl]
  rw [hv (i - 1) 2 (by omega) (by omega), hv (i - 1) 1 (by omega) (by omega),
    hv (i - 1) 0 (by omega) (by omega), hv i 2 (by omega) (by omega),
    hv i 1 (by omega) (by omega), hv i 0 (by omega) (by omega)]
  simp only [coeffRow]
  norm_num
  rw [show i - 1 + 1 = i from by omega]
  module

theorem junction_velocity_continuity_witness :
    (((fitSpline ((0 : ℚ), (0 : ℚ)) (2, 0) 2 (fun _ => (1, 1))).getCurve
        []).getD (1 - 1) ⟨0, fun _ => 0⟩).velAt 1 =
    (((fitSpline ((0 : ℚ), (0 : ℚ)) (2, 0) 2 (fun _ => (1, 1))).getCurve
        []).getD 1 ⟨0, fun _ => 0⟩).velAt 0 :=
  junction_velocity_continuity (0, 0) (2, 0) 2 (fun _ => (1, 1)) [] 1
    (by norm_num) (by norm_num)

/-!
## Claim C4
-/

/-- C4 (amended): the storage mapping `(i,j) ↦ (i-j+upperBw)·N + j` maps every
in-band index pair inside the `N × N` block into the allocated block of
`N·(p+q+1)` offsets and is injective on those pairs (hence a bijection onto
its image, giving single-offset element access); it is not onto the whole
block. -/
theorem band_offset_injective_into_block (S : BandedSystem) (hN : 0 < S.N)
    (i j a b : ℕ) (hi : i < S.N) (hj : j < S.N) (ha : a < S.N) (hb : b < S.N)
    (h1 : inBand S.lowerBw S.upperBw i j)
    (h2 : inBand S.lowerBw S.upperBw a b) :
    (0 ≤ S.offsetOf i j ∧
      S.offsetOf i j < (S.N : ℤ) * ((S.lowerBw : ℤ) + (S.upperBw : ℤ) + 1)) ∧
    (S.offsetOf i j = S.offsetOf a b → i = a ∧ j = b) :=
  ⟨S.offsetOf_mem_block hj h1, fun h => S.offsetOf_inj hN hj hb h1 h2 h⟩

theorem band_offset_injective_into_block_witness :
    ((0 : ℤ) ≤ (BandedSystem.mk 2 1 1 (fun _ => 0)).offsetOf 1 0 ∧
      (BandedSystem.mk 2 1 1 (fun _ => 0)).offsetOf 1 0 <
        ((2 : ℕ) : ℤ) * (((1 : ℕ) : ℤ) + ((1 : ℕ) : ℤ) + 1)) ∧
    ((BandedSystem.mk 2 1 1 (fun _ => 0)).offsetOf 1 0 =
        (BandedSystem.mk 2 1 1 (fun _ => 0)).offsetOf 0 1 → 1 = 0 ∧ 0 = 1) :=
  band_offset_injective_into_block (BandedSystem.mk 2 1 1 (fun _ => 0))
    (by decide) 1 0 0 1 (by decide) (by decide) (by decide) (by decide)
    (by decide) (by decide)

/-- C4 is false as stated: for `N = 2`, `p = q = 1` the mapping is not onto
the block `0 .. N·(p+q+1)-1 = 0 .. 5`; the offset `0` lies in the block but
has no in-band preimage. -/
theorem band_offset_not_onto_block :
    ((0 : ℤ) ≤ 0 ∧ (0 : ℤ) < ((2 : ℕ) : ℤ) * (((1 : ℕ) : ℤ) + ((1 : ℕ) : ℤ) + 1)) ∧
    ¬ ∃ i < 2, ∃ j < 2, inBand 1 1 i j ∧
        (BandedSystem.mk 2 1 1 (fun _ => 0)).offsetOf i j = 0 := by
  decide

/-!
## Claim C3
-/

theorem waypoints_congr (S : CubicSpline) (ps ps2 : ℕ → Vec2)
    (hps : ∀ i, i < S.N - 1 → ps i = ps2 i) :
    S.waypoints ps = S.waypoints ps2 := by
  funext i
  unfold CubicSpline.waypoints
  by_cases h1 : i = S.N
  · simp [h1]
  · by_cases h2 : i = 0
    · simp [h1, h2]
    · by_cases h3 : i < S.N
      · simp only [h1, h2, h3, if_true, if_false]
        exact hps (i - 1) (by omega)
      · simp [h1, h2, h3]

/-- C3 (amended): the fitter performs no dimension validation.  Interior
points beyond index `segmentCount - 2` are silently ignored (truncation), and
`segmentCount = 1` is silently processed rather than rejected: the fit then
produces a single segment with `D = 0`, `c₀ = 3(t-h)`, `d₀ = -2(t-h)`, and
`getStretchEnergy` returns `52·‖t-h‖²`. -/
theorem no_dimension_validation :
    (∀ (h t : Vec2) (ps : ℕ → Vec2),
        (fitSpline h t 1 ps).getStretchEnergy = 52 * sqNorm (t - h)) ∧
    (∀ (h t : Vec2) (n : ℕ) (ps ps2 : ℕ → Vec2),
        (∀ i, i < n - 1 → ps i = ps2 i) →
          fitSpline h t n ps = fitSpline h t n ps2) := by
  constructor
  · intro h t ps
    have hr : ∀ k : ℕ, k < 4 →
        (fitSpline h t 1 ps).b k =
          coeffRow ((CubicSpline.init.setConditions h t 1).waypoints ps)
            (tangents (CubicSpline.init.setConditions h t 1) ps) 0 k := by
      intro k hk
      have hb := fitSpline_b h t 1 ps 0 k (by norm_num) hk
      simpa using hb
    have hD : ∀ i, tangents (CubicSpline.init.setConditions h t 1) ps i = 0 := by
      intro i
      show (if 1 ≤ i ∧ i < (CubicSpline.init.setConditions h t 1).N
          then (((fillAb (CubicSpline.init.setConditions h t 1) ps).1.factorizeLU).solve
            (fillAb (CubicSpline.init.setConditions h t 1) ps).2) (i - 1)
          else 0) = 0
      rw [show (CubicSpline.init.setConditions h t 1).N = 1 from rfl,
        if_neg (by omega)]
    have hX0 : (CubicSpline.init.setConditions h t 1).waypoints ps 0 = h := by
      rw [waypoints_zero _ _ (by norm_num [CubicSpline.setConditions])]
      rfl
    have hX1 : (CubicSpline.init.setConditions h t 1).waypoints ps 1 = t :=
      waypoints_top _ _
    unfold CubicSpline.getStretchEnergy
    have hN1 : (fitSpline h t 1 ps).N = 1 := rfl
    rw [hN1, show List.range 1 = [0] from rfl]
    simp only [List.foldl_cons, List.foldl_nil]
    norm_num
    rw [hr 0 (by norm_num), hr 1 (by norm_num)]
    simp only [coeffRow, if_true, if_false]
    norm_num
    rw [hD 0, hD 1, hX0, hX1]
    simp only [dot, sqNorm, Prod.smul_fst, Prod.smul_snd, Prod.fst_sub,
      Prod.snd_sub, Prod.fst_add, Prod.snd_add, smul_eq_mul, Prod.fst_zero,
      Prod.snd_zero]
    ring
  · intro h t n ps ps2 hps
    have hw : (CubicSpline.init.setConditions h t n).waypoints ps =
        (CubicSpline.init.setConditions h t n).waypoints ps2 :=
      waypoints_congr _ _ _ (fun i hi => hps i hi)
    unfold fitSpline CubicSpline.setInnerPoints CubicSpline.tangents
      CubicSpline.fillAb
    rw [hw]

theorem no_dimension_validation_witness :
    fitSpline ((0 : ℚ), (0 : ℚ)) (0, 0) 2 (fun _ => (1, 0)) =
      fitSpline ((0 : ℚ), (0 : ℚ)) (0, 0) 2
        (fun i => if i = 0 then (1, 0) else (7, 7)) :=
  no_dimension_validation.2 (0, 0) (0, 0) 2 _ _ (fun i hi => by
    have h0 : i = 0 := by omega
    subst h0
    rfl)

/-- C3 is false as stated: the invalid input `segmentCount = 1` (which also
makes any supplied interior point count a mismatch) is not reported as an
error; the fitter silently processes it and returns stretch energy `52` for
head `(0,0)`, tail `(1,0)`. -/
theorem segment_count_one_processed :
    (fitSpline ((0 : ℚ), (0 : ℚ)) (1, 0) 1 (fun _ => (0, 0))).getStretchEnergy
      = 52 := by
  norm_num [fitSpline, CubicSpline.init, CubicSpline.setConditions,
    CubicSpline.setInnerPoints, CubicSpline.getStretchEnergy,
    CubicSpline.waypoints, fillAb, tangents, coeffTable, coeffRow,
    BandedSystem.create, BandedSystem.set, BandedSystem.get,
    BandedSystem.offsetOf, BandedSystem.factorizeLU, BandedSystem.factorizeStep,
    BandedSystem.solve, foldIdx, dot, sqNorm,
    show List.range 0 = [] from rfl, show List.range 1 = [0] from rfl,
    Function.update_apply, Prod.ext_iff, Prod.smul_mk, Prod.mk_add_mk,
    Prod.mk_sub_mk, smul_eq_mul]

/-!
## Claims C1 and C2
-/

/-- C1 (code bug): at head `(0,0)`, tail `(2,0)`, `segmentCount = 2`, interior
point `(1,1)`, `getStretchEnergy` returns `736`, while the spec formula
`Σ 4‖c_i‖² + 12‖d_i‖² + 12(c_i·d_i)` (the code's own comment) gives `192`:
the code reads `coeffMat.col(1)` (the quadratic row `c_i`) as `d` and
`coeffMat.col(0)` (the cubic row `d_i`) as `c`, swapping the two. -/
theorem stretch_energy_swapped_at_failing_input :
    (fitSpline ((0 : ℚ), (0 : ℚ)) (2, 0) 2 (fun _ => (1, 1))).getStretchEnergy
        = 736 ∧
    specStretchEnergy (fitSpline ((0 : ℚ), (0 : ℚ)) (2, 0) 2 (fun _ => (1, 1)))
        = 192 := by
  constructor <;>
  norm_num [fitSpline, CubicSpline.init, CubicSpline.setConditions,
    CubicSpline.setInnerPoints, CubicSpline.getStretchEnergy, specStretchEnergy,
    CubicSpline.waypoints, fillAb, tangents, coeffTable, coeffRow,
    BandedSystem.create, BandedSystem.set, BandedSystem.get,
    BandedSystem.offsetOf, BandedSystem.factorizeLU, BandedSystem.factorizeStep,
    BandedSystem.solve, foldIdx, dot, sqNorm,
    show List.range 0 = [] from rfl, show List.range 1 = [0] from rfl,
    show List.range 2 = [0, 1] from rfl,
    show List.range' 1 0 = [] from rfl, show List.range' 0 0 = [] from rfl,
    show List.range' 1 1 = [1] from rfl, show List.range' 0 1 = [0] from rfl,
    Function.update_apply, Prod.ext_iff, Prod.smul_mk, Prod.mk_add_mk,
    Prod.mk_sub_mk, smul_eq_mul]

/-- C2 is false as stated: for the two colinear evenly-spaced configurations
the fit does not produce zero coefficients — the boundary tangents are
clamped to `D₀ = D_N = 0` (and, for `segmentCount = 2`, the band store
aliases `A(0,1)` onto `A(0,0)`), so the computed stretch energy is nonzero. -/
theorem colinear_fit_energy_nonzero :
    (fitSpline ((0 : ℚ), (0 : ℚ)) (3, 0) 3
        (fun i => if i = 0 then (1, 0) else (2, 0))).getStretchEnergy ≠ 0 ∧
    (fitSpline ((0 : ℚ), (0 : ℚ)) (2, 0) 2
        (fun _ => (1, 0))).getStretchEnergy ≠ 0 := by
  constructor <;>
  norm_num [fitSpline, CubicSpline.init, CubicSpline.setConditions,
    CubicSpline.setInnerPoints, CubicSpline.getStretchEnergy,
    CubicSpline.waypoints, fillAb, tangents, coeffTable, coeffRow,
    BandedSystem.create, BandedSystem.set, BandedSystem.get,
    BandedSystem.offsetOf, BandedSystem.factorizeLU, BandedSystem.factorizeStep,
    BandedSystem.solve, foldIdx, dot, sqNorm,
    show List.range 0 = [] from rfl, show List.range 1 = [0] from rfl,
    show List.range 2 = [0, 1] from rfl, show List.range 3 = [0, 1, 2] from rfl,
    show List.range' 1 0 = [] from rfl, show List.range' 0 0 = [] from rfl,
    show List.range' 1 1 = [1] from rfl, show List.range' 0 1 = [0] from rfl,
    show List.range' 2 0 = [] from rfl,
    Function.update_apply, Prod.ext_iff, Prod.smul_mk, Prod.mk_add_mk,
    Prod.mk_sub_mk, smul_eq_mul]

/-- C2 (amended): for the colinear evenly-spaced configurations the clamped
boundary tangents `D₀ = D_N = 0` keep the spline from degenerating to a
straight line: the computed stretch energy is `684/25` for the three-segment
case and `632` for the two-segment case (where additionally the band store
aliases `A(0,1)` onto `A(0,0)`), not `0`. -/
theorem colinear_fit_energy_values :
    (fitSpline ((0 : ℚ), (0 : ℚ)) (3, 0) 3
        (fun i => if i = 0 then (1, 0) else (2, 0))).getStretchEnergy
      = 684 / 25 ∧
    (fitSpline ((0 : ℚ), (0 : ℚ)) (2, 0) 2
        (fun _ => (1, 0))).getStretchEnergy = 632 := by
  constructor <;>
  norm_num [fitSpline, CubicSpline.init, CubicSpline.setConditions,
    CubicSpline.setInnerPoints, CubicSpline.getStretchEnergy,
    CubicSpline.waypoints, fillAb, tangents, coeffTable, coeffRow,
    BandedSystem.create, BandedSystem.set, BandedSystem.get,
    BandedSystem.offsetOf, BandedSystem.factorizeLU, BandedSystem.factorizeStep,
    BandedSystem.solve, foldIdx, dot, sqNorm,
    show List.range 0 = [] from rfl, show List.range 1 = [0] from rfl,
    show List.range 2 = [0, 1] from rfl, show List.range 3 = [0, 1, 2] from rfl,
    show List.range' 1 0 = [] from rfl, show List.range' 0 0 = [] from rfl,
    show List.range' 1 1 = [1] from rfl, show List.range' 0 1 = [0] from rfl,
    show List.range' 2 0 = [] from rfl,
    Function.update_apply, Prod.ext_iff, Prod.smul_mk, Prod.mk_add_mk,
    Prod.mk_sub_mk, smul_eq_mul]

/-!
## Dense elimination: basic lemmas
-/

theorem dstep_row_le {p q k a b : ℕ} (M : ℕ → ℕ → ℚ) (h : a ≤ k) :
    dstep p q k M a b = M a b := by
  unfold dstep
  rw [if_neg (by omega), if_neg (by omega)]

theorem dstep_col_lt {p q k a b : ℕ} (M : ℕ → ℕ → ℚ) (h : b < k) :
    dstep p q k M a b = M a b := by
  unfold dstep
  rw [if_neg (by omega), if_neg (by omega)]

theorem bandedMat_zero_right {n p q : ℕ} {M : ℕ → ℕ → ℚ} (hB : BandedMat n p q M)
    {a b : ℕ} (h : b + p < a) : M a b = 0 := by
  refine hB a b (Or.inr (Or.inr ?_))
  intro hc
  obtain ⟨h1, _⟩ := hc
  omega

theorem bandedMat_zero_left {n p q : ℕ} {M : ℕ → ℕ → ℚ} (hB : BandedMat n p q M)
    {a b : ℕ} (h : a + q < b) : M a b = 0 := by
  refine hB a b (Or.inr (Or.inr ?_))
  intro hc
  obtain ⟨_, h2⟩ := hc
  omega

theorem dstep_mult {n p q k a : ℕ} {M : ℕ → ℕ → ℚ} (hB : BandedMat n p q M)
    (h : k < a) : dstep p q k M a k = M a k / M k k := by
  unfold dstep
  by_cases hp : a ≤ k + p
  · rw [if_pos ⟨h, hp, rfl⟩]
  · rw [if_neg (by omega), if_neg (by omega)]
    rw [bandedMat_zero_right hB (by omega), zero_div]

theorem dstep_active {n p q k a b : ℕ} {M : ℕ → ℕ → ℚ} (hB : BandedMat n p q M)
    (ha : k < a) (hb : k < b) :
    dstep p q k M a b = M a b - M a k / M k k * M k b := by
  unfold dstep
  by_cases hp : a ≤ k + p
  · by_cases hq : b ≤ k + q
    · rw [if_neg (by omega), if_pos ⟨ha, hp, hb, hq⟩]
    · rw [if_neg (by omega), if_neg (by omega)]
      rw [bandedMat_zero_left hB (show k + q < b by omega), mul_zero, sub_zero]
  · rw [if_neg (by omega), if_neg (by omega)]
    rw [bandedMat_zero_right hB (show k + p < a by omega), zero_div, zero_mul,
      sub_zero]

theorem dstep_banded {n p q k : ℕ} {M : ℕ → ℕ → ℚ} (hB : BandedMat n p q M) :
    BandedMat n p q (dstep p q k M) := by
  intro i j h
  unfold dstep
  by_cases h1 : k < i ∧ i ≤ k + p ∧ j = k
  · rw [if_pos h1]
    obtain ⟨hik, hip, hjk⟩ := h1
    subst hjk
    have hz : M i j = 0 := by
      refine hB i j ?_
      rcases h with h | h | h
      · exact Or.inl h
      · exact Or.inr (Or.inl h)
      · exact absurd ⟨by omega, by omega⟩ h
    rw [hz, zero_div]
  · rw [if_neg h1]
    by_cases h2 : k < i ∧ i ≤ k + p ∧ k < j ∧ j ≤ k + q
    · rw [if_pos h2]
      obtain ⟨hik, hip, hkj, hjq⟩ := h2
      have hband : inBand p q i j := ⟨by omega, by omega⟩
      rcases h with h | h | h
      · rw [hB i j (Or.inl h), hB i k (Or.inl h), zero_div, zero_mul, sub_zero]
      · rw [hB i j (Or.inr (Or.inl h)), hB k j (Or.inr (Or.inl h)), mul_zero,
          sub_zero]
      · exact absurd hband h
    · rw [if_neg h2]
      exact hB i j h

theorem delim_banded {n p q : ℕ} {M : ℕ → ℕ → ℚ} (hB : BandedMat n p q M) :
    ∀ k, BandedMat n p q (delim p q M k) := by
  intro k
  induction k with
  | zero => exact hB
  | succ m ih => exact dstep_banded (n := n) ih

theorem delim_row_stable {p q : ℕ} {M : ℕ → ℕ → ℚ} {a b k : ℕ} (ha : a ≤ k) :
    ∀ k2, k ≤ k2 → delim p q M k2 a b = delim p q M k a b := by
  intro k2 hk
  induction k2 with
  | zero => rw [Nat.le_zero.mp hk]
  | succ m ih =>
      by_cases hm : k = m + 1
      · rw [hm]
      · have hkm : k ≤ m := by omega
        show dstep p q m (delim p q M m) a b = _
        rw [dstep_row_le _ (by omega), ih hkm]

theorem delim_col_stable {p q : ℕ} {M : ℕ → ℕ → ℚ} {a b k : ℕ} (hb : b < k) :
    ∀ k2, k ≤ k2 → delim p q M k2 a b = delim p q M k a b := by
  intro k2 hk
  induction k2 with
  | zero => omega
  | succ m ih =>
      by_cases hm : k = m + 1
      · rw [hm]
      · have hkm : k ≤ m := by omega
        show dstep p q m (delim p q M m) a b = _
        rw [dstep_col_lt _ (by omega), ih hkm]


/-!
## Dense elimination: the factorization identity `L·U = M`
-/

theorem lowerPartAt_diag (F : ℕ → ℕ → ℚ) (k a : ℕ) :
    lowerPartAt F k a a = 1 := by
  simp only [lowerPartAt]
  rw [if_neg (show ¬(a < k ∧ a < a) by omega)]
  simp

theorem lu_step {n p q k : ℕ} {F : ℕ → ℕ → ℚ} (hB : BandedMat n p q F)
    (hpiv : k < n → F k k ≠ 0) (a b : ℕ) :
    matMulN n (lowerPartAt (dstep p q k F) (k + 1))
        (upperPartAt (dstep p q k F) (k + 1)) a b
      = matMulN n (lowerPartAt F k) (upperPartAt F k) a b := by
  unfold matMulN
  set F1 := dstep p q k F with hF1
  have hF1row : ∀ t b2 : ℕ, t ≤ k → F1 t b2 = F t b2 := fun t b2 h =>
    dstep_row_le F h
  have hF1col : ∀ a2 t : ℕ, t < k → F1 a2 t = F a2 t := fun a2 t h =>
    dstep_col_lt F h
  -- the upper parts agree on every row `t ≤ k`
  have hUle : ∀ t, t ≤ k →
      upperPartAt F1 (k + 1) t b = upperPartAt F k t b := by
    intro t ht
    simp only [upperPartAt]
    by_cases hm : b < t ∧ b < k
    · rw [if_pos ⟨hm.1, by omega⟩, if_pos hm]
    · rw [if_neg (by omega), if_neg hm, hF1row t b ht]
  -- the summand is unchanged at every index `t < k`
  have hterm_lt : ∀ t, t < k →
      lowerPartAt F1 (k + 1) a t * upperPartAt F1 (k + 1) t b
        = lowerPartAt F k a t * upperPartAt F k t b := by
    intro t ht
    have hL : lowerPartAt F1 (k + 1) a t = lowerPartAt F k a t := by
      simp only [lowerPartAt]
      by_cases hta : t < a
      · rw [if_pos ⟨by omega, hta⟩, if_pos ⟨by omega, hta⟩, hF1col a t ht]
      · rw [if_neg (show ¬(t < k + 1 ∧ t < a) by omega),
          if_neg (show ¬(t < k ∧ t < a) by omega)]
    rw [hL, hUle t (by omega)]
  by_cases hak : a ≤ k
  · -- rows `a ≤ k` of the product are untouched
    refine Finset.sum_congr rfl fun t htm => ?_
    by_cases ht : t < k
    · exact hterm_lt t ht
    · have hL : lowerPartAt F1 (k + 1) a t = lowerPartAt F k a t := by
        simp only [lowerPartAt]
        rw [if_neg (show ¬(t < k + 1 ∧ t < a) by omega),
          if_neg (show ¬(t < k ∧ t < a) by omega)]
      by_cases hat : a = t
      · rw [hL, hUle t (by omega)]
      · have hL0 : lowerPartAt F k a t = 0 := by
          simp only [lowerPartAt]
          rw [if_neg (show ¬(t < k ∧ t < a) by omega), if_neg hat]
        rw [hL, hL0, zero_mul, zero_mul]
  · -- rows `a > k`
    have hak2 : k < a := by omega
    have hterm_gt : ∀ t, k < t → t ≠ a →
        lowerPartAt F1 (k + 1) a t * upperPartAt F1 (k + 1) t b
          = lowerPartAt F k a t * upperPartAt F k t b := by
      intro t ht hta
      have hL1 : lowerPartAt F1 (k + 1) a t = 0 := by
        simp only [lowerPartAt]
        rw [if_neg (show ¬(t < k + 1 ∧ t < a) by omega),
          if_neg (show ¬(a = t) by omega)]
      have hL0 : lowerPartAt F k a t = 0 := by
        simp only [lowerPartAt]
        rw [if_neg (show ¬(t < k ∧ t < a) by omega),
          if_neg (show ¬(a = t) by omega)]
      rw [hL1, hL0, zero_mul, zero_mul]
    have hLak0 : lowerPartAt F k a k = 0 := by
      simp only [lowerPartAt]
      rw [if_neg (show ¬(k < k ∧ k < a) by omega),
        if_neg (show ¬(a = k) by omega)]
    have hL1ak : lowerPartAt F1 (k + 1) a k = F a k / F k k := by
      simp only [lowerPartAt]
      rw [if_pos ⟨by omega, hak2⟩]
      exact dstep_mult hB hak2
    by_cases hkn : n ≤ k
    · refine Finset.sum_congr rfl fun t htm => ?_
      have ht : t < k := by
        have := Finset.mem_range.mp htm
        omega
      exact hterm_lt t ht
    · have hkn2 : k < n := by omega
      by_cases han : n ≤ a
      · -- row `a` outside the block: the `t = k` summands both vanish
        refine Finset.sum_congr rfl fun t htm => ?_
        have htn : t < n := Finset.mem_range.mp htm
        by_cases ht : t < k
        · exact hterm_lt t ht
        · by_cases htk : t = k
          · subst htk
            have hFa0 : F a t = 0 := hB a t (Or.inl han)
            rw [hL1ak, hLak0, hFa0, zero_div, zero_mul, zero_mul]
          · exact hterm_gt t (by omega) (by omega)
      · -- the main case: `k < a < n`; the `t = k` and `t = a` changes cancel
        have han2 : a < n := by omega
        have hka : k ≠ a := by omega
        have hmem_a : a ∈ Finset.range n := Finset.mem_range.mpr han2
        have hmem_k : k ∈ (Finset.range n).erase a :=
          Finset.mem_erase.mpr ⟨hka, Finset.mem_range.mpr hkn2⟩
        rw [← Finset.sum_erase_add _ _ hmem_a, ← Finset.sum_erase_add _ _ hmem_k]
        conv_rhs =>
          rw [← Finset.sum_erase_add _ _ hmem_a,
            ← Finset.sum_erase_add _ _ hmem_k]
        have hrest : ∀ t ∈ ((Finset.range n).erase a).erase k,
            lowerPartAt F1 (k + 1) a t * upperPartAt F1 (k + 1) t b
              = lowerPartAt F k a t * upperPartAt F k t b := by
          intro t htm
          have h1 := Finset.mem_erase.mp htm
          have h2 := Finset.mem_erase.mp h1.2
          by_cases ht : t < k
          · exact hterm_lt t ht
          · exact hterm_gt t (by omega) h2.1
        rw [Finset.sum_congr rfl hrest]
        have key :
            lowerPartAt F1 (k + 1) a k * upperPartAt F1 (k + 1) k b
                + lowerPartAt F1 (k + 1) a a * upperPartAt F1 (k + 1) a b
              = lowerPartAt F k a k * upperPartAt F k k b
                + lowerPartAt F k a a * upperPartAt F k a b := by
          rw [hLak0, hL1ak, lowerPartAt_diag, lowerPartAt_diag, zero_mul,
            one_mul, one_mul]
          -- `U1 k b`: row `k` is unchanged; the extra mask `b = k` never fires
          have hU1k : upperPartAt F1 (k + 1) k b =
              if b < k then 0 else F k b := by
            simp only [upperPartAt]
            by_cases hbk : b < k
            · rw [if_pos ⟨hbk, by omega⟩, if_pos hbk]
            · rw [if_neg (by omega), if_neg hbk, hF1row k b le_rfl]
          by_cases hbk : b < k
          · have hU1a : upperPartAt F1 (k + 1) a b = 0 := by
              simp only [upperPartAt]
              rw [if_pos ⟨by omega, by omega⟩]
            have hUa : upperPartAt F k a b = 0 := by
              simp only [upperPartAt]
              rw [if_pos ⟨by omega, hbk⟩]
            rw [hU1k, if_pos hbk, hU1a, hUa, mul_zero, zero_add]
          · by_cases hbk2 : b = k
            · subst hbk2
              have hU1a : upperPartAt F1 (b + 1) a b = 0 := by
                simp only [upperPartAt]
                rw [if_pos ⟨by omega, by omega⟩]
              have hUa : upperPartAt F b a b = F a b := by
                simp only [upperPartAt]
                rw [if_neg (by omega)]
              rw [hU1k, if_neg (by omega), hU1a, hUa]
              rw [add_zero, zero_add]
              exact div_mul_cancel₀ (F a b) (hpiv hkn2)
            · have hbgt : k < b := by omega
              have hU1a : upperPartAt F1 (k + 1) a b = F1 a b := by
                simp only [upperPartAt]
                rw [if_neg (by omega)]
              have hUa : upperPartAt F k a b = F a b := by
                simp only [upperPartAt]
                rw [if_neg (by omega)]
              rw [hU1k, if_neg (by omega), hU1a, hUa, hF1,
                dstep_active hB hak2 hbgt]
              ring
        linarith [key]

theorem lu_partial {n p q : ℕ} {M : ℕ → ℕ → ℚ} (hB : BandedMat n p q M)
    (hpiv : ∀ t, t < n → pivAt p q M t ≠ 0) :
    ∀ k a b, matMulN n (lowerPartAt (delim p q M k) k)
      (upperPartAt (delim p q M k) k) a b = M a b := by
  intro k
  induction k with
  | zero =>
      intro a b
      unfold matMulN
      have hterm : ∀ t, lowerPartAt (delim p q M 0) 0 a t
          * upperPartAt (delim p q M 0) 0 t b
          = if a = t then M t b else 0 := by
        intro t
        simp only [lowerPartAt, upperPartAt, delim]
        rw [if_neg (show ¬(t < 0 ∧ t < a) by omega),
          if_neg (show ¬(b < t ∧ b < 0) by omega)]
        by_cases hat : a = t
        · rw [if_pos hat, if_pos hat, one_mul]
        · rw [if_neg hat, if_neg hat, zero_mul]
      rw [Finset.sum_congr rfl fun t _ => hterm t, Finset.sum_ite_eq]
      by_cases han : a < n
      · rw [if_pos (Finset.mem_range.mpr han)]
      · rw [if_neg (by simpa using han)]
        exact (hB a b (Or.inl (by omega))).symm
  | succ m ih =>
      intro a b
      have hBm : BandedMat n p q (delim p q M m) := delim_banded hB m
      have hstep := lu_step (k := m) hBm (fun hm => hpiv m hm) a b
      calc matMulN n (lowerPartAt (delim p q M (m + 1)) (m + 1))
            (upperPartAt (delim p q M (m + 1)) (m + 1)) a b
          = matMulN n (lowerPartAt (delim p q M m) m)
            (upperPartAt (delim p q M m) m) a b := hstep
        _ = M a b := ih a b

theorem dstep_top {n p q k : ℕ} {F : ℕ → ℕ → ℚ} (hB : BandedMat n p q F)
    (hk : n ≤ k + 1) : dstep p q k F = F := by
  funext a b
  unfold dstep
  by_cases h1 : k < a ∧ a ≤ k + p ∧ b = k
  · rw [if_pos h1]
    obtain ⟨h1a, _, h1c⟩ := h1
    subst h1c
    rw [hB a b (Or.inl (by omega)), zero_div]
  · rw [if_neg h1]
    by_cases h2 : k < a ∧ a ≤ k + p ∧ k < b ∧ b ≤ k + q
    · rw [if_pos h2]
      rw [hB a k (Or.inl (by omega)), zero_div, zero_mul, sub_zero]
    · rw [if_neg h2]

theorem delim_top {n p q : ℕ} {M : ℕ → ℕ → ℚ} (hB : BandedMat n p q M) :
    delim p q M n = delim p q M (n - 1) := by
  cases n with
  | zero => rfl
  | succ m =>
      show dstep p q m (delim p q M m) = delim p q M (m + 1 - 1)
      rw [dstep_top (delim_banded hB m) (by omega)]
      rfl

theorem lowerFac_diag (n p q : ℕ) (M : ℕ → ℕ → ℚ) (a : ℕ) :
    lowerFac n p q M a a = 1 := lowerPartAt_diag _ _ _

theorem lowerFac_upper_zero {n p q : ℕ} (M : ℕ → ℕ → ℚ) {a t : ℕ} (h : a < t) :
    lowerFac n p q M a t = 0 := by
  unfold lowerFac lowerPartAt
  rw [if_neg (by omega), if_neg (by omega)]

theorem lowerFac_eq_of_lt {n p q : ℕ} {M : ℕ → ℕ → ℚ} (hB : BandedMat n p q M)
    {a t : ℕ} (h : t < a) :
    lowerFac n p q M a t = delim p q M (n - 1) a t := by
  unfold lowerFac lowerPartAt
  by_cases htn : t < n
  · rw [if_pos ⟨htn, h⟩]
  · rw [if_neg (by omega), if_neg (by omega),
      (delim_banded hB (n - 1)) a t (Or.inr (Or.inl (by omega)))]

theorem lowerFac_band_zero {n p q : ℕ} {M : ℕ → ℕ → ℚ} (hB : BandedMat n p q M)
    {a t : ℕ} (h : t + p < a) : lowerFac n p q M a t = 0 := by
  rw [lowerFac_eq_of_lt hB (by omega)]
  exact bandedMat_zero_right (delim_banded hB (n - 1)) h

theorem upperFac_eq_of_le {n p q : ℕ} (M : ℕ → ℕ → ℚ) {a t : ℕ} (h : a ≤ t) :
    upperFac n p q M a t = delim p q M (n - 1) a t := by
  unfold upperFac upperPartAt
  rw [if_neg (by omega)]

theorem upperFac_lower_zero {n p q : ℕ} {M : ℕ → ℕ → ℚ} (hB : BandedMat n p q M)
    {a t : ℕ} (h : t < a) : upperFac n p q M a t = 0 := by
  unfold upperFac upperPartAt
  by_cases htn : t < n
  · rw [if_pos ⟨h, htn⟩]
  · rw [if_neg (by omega)]
    exact (delim_banded hB (n - 1)) a t (Or.inr (Or.inl (by omega)))

theorem upperFac_band_zero {n p q : ℕ} {M : ℕ → ℕ → ℚ} (hB : BandedMat n p q M)
    {a t : ℕ} (h : a + q < t) : upperFac n p q M a t = 0 := by
  by_cases hat : a ≤ t
  · rw [upperFac_eq_of_le M hat]
    exact bandedMat_zero_left (delim_banded hB (n - 1)) h
  · omega

theorem upperFac_diag {n p q : ℕ} (M : ℕ → ℕ → ℚ) {k : ℕ} (hk : k < n) :
    upperFac n p q M k k = pivAt p q M k := by
  rw [upperFac_eq_of_le M le_rfl]
  exact delim_row_stable le_rfl (n - 1) (by omega)

theorem lu_full {n p q : ℕ} {M : ℕ → ℕ → ℚ} (hB : BandedMat n p q M)
    (hpiv : pivotsNZ n p q M) (a b : ℕ) :
    matMulN n (lowerFac n p q M) (upperFac n p q M) a b = M a b := by
  have h := lu_partial hB hpiv n a b
  rw [delim_top hB] at h
  exact h


/-!
## Diagonal dominance gives nonzero pivots
-/

theorem abs_sub_le_abs_add_abs (a b : ℚ) : |a - b| ≤ |a| + |b| := by
  calc |a - b| = |a + -b| := by rw [sub_eq_add_neg]
    _ ≤ |a| + |-b| := abs_add a (-b)
    _ = |a| + |b| := by rw [abs_neg]

theorem sddRowFrom_piv {k n : ℕ} {F : ℕ → ℕ → ℚ} (hs : sddRowFrom k n F)
    (hk : k < n) : F k k ≠ 0 := by
  intro h0
  have h1 := hs k le_rfl hk
  have h2 : (0 : ℚ) ≤ ∑ j ∈ Finset.Ico k n, if j = k then 0 else |F k j| :=
    Finset.sum_nonneg fun j _ => by
      by_cases hj : j = k
      · rw [if_pos hj]
      · rw [if_neg hj]; exact abs_nonneg _
  rw [h0, abs_zero] at h1
  linarith

theorem sddRowFrom_dstep {n p q k : ℕ} {F : ℕ → ℕ → ℚ} (hB : BandedMat n p q F)
    (hs : sddRowFrom k n F) : sddRowFrom (k + 1) n (dstep p q k F) := by
  intro i hik hin
  have hkn : k < n := by omega
  have hpiv : F k k ≠ 0 := sddRowFrom_piv hs hkn
  have hims : i ∈ Finset.Ico (k + 1) n := Finset.mem_Ico.mpr ⟨hik, hin⟩
  have hkms : k ∉ Finset.Ico (k + 1) n := by
    intro hc
    exact absurd (Finset.mem_Ico.mp hc).1 (by omega)
  have hins : Finset.Ico k n = insert k (Finset.Ico (k + 1) n) := by
    rw [← Nat.Ico_insert_succ_left hkn]
  have hactive : ∀ b2, k < b2 →
      dstep p q k F i b2 = F i b2 - F i k / F k k * F k b2 := fun b2 hb2 =>
    dstep_active hB (by omega) hb2
  have hgoal_sum : (∑ j ∈ Finset.Ico (k + 1) n,
      if j = i then 0 else |dstep p q k F i j|)
      = ∑ j ∈ Finset.Ico (k + 1) n,
        if j = i then 0 else |F i j - F i k / F k k * F k j| := by
    refine Finset.sum_congr rfl fun j hj => ?_
    by_cases hji : j = i
    · rw [if_pos hji, if_pos hji]
    · rw [if_neg hji, if_neg hji, hactive j (Finset.mem_Ico.mp hj).1]
  rw [hgoal_sum, hactive i (by omega)]
  have hterm : ∀ j ∈ Finset.Ico (k + 1) n,
      (if j = i then 0 else |F i j - F i k / F k k * F k j|)
        ≤ (if j = i then 0 else |F i j|)
          + (if j = i then (0 : ℚ) else |F i k / F k k| * |F k j|) := by
    intro j _
    by_cases hji : j = i
    · rw [if_pos hji, if_pos hji, if_pos hji]; norm_num
    · rw [if_neg hji, if_neg hji, if_neg hji, ← abs_mul]
      exact abs_sub_le_abs_add_abs _ _
  have hsum1 : (∑ j ∈ Finset.Ico (k + 1) n,
      if j = i then 0 else |F i j - F i k / F k k * F k j|)
      ≤ (∑ j ∈ Finset.Ico (k + 1) n, if j = i then 0 else |F i j|)
        + ∑ j ∈ Finset.Ico (k + 1) n,
            if j = i then (0 : ℚ) else |F i k / F k k| * |F k j| := by
    rw [← Finset.sum_add_distrib]
    exact Finset.sum_le_sum hterm
  have hrow_i := hs i (by omega) hin
  rw [hins, Finset.sum_insert hkms, if_neg (show ¬(k = i) by omega)] at hrow_i
  have hbound1 : (∑ j ∈ Finset.Ico (k + 1) n, if j = i then 0 else |F i j|)
      < |F i i| - |F i k| := by linarith
  have hrow_k := hs k le_rfl hkn
  rw [hins, Finset.sum_insert hkms, if_pos rfl, zero_add] at hrow_k
  have hTk : (∑ j ∈ Finset.Ico (k + 1) n, if j = k then 0 else |F k j|)
      = ∑ j ∈ Finset.Ico (k + 1) n, |F k j| := by
    refine Finset.sum_congr rfl fun j hj => ?_
    rw [if_neg (show ¬(j = k) by
      have := (Finset.mem_Ico.mp hj).1; omega)]
  rw [hTk] at hrow_k
  have hT : (∑ j ∈ Finset.Ico (k + 1) n, if j = i then 0 else |F k j|)
      = (∑ j ∈ Finset.Ico (k + 1) n, |F k j|) - |F k i| := by
    have h1 : (∑ j ∈ (Finset.Ico (k + 1) n).erase i, |F k j|) + |F k i|
        = ∑ j ∈ Finset.Ico (k + 1) n, |F k j| :=
      Finset.sum_erase_add _ _ hims
    have h2 : (∑ j ∈ (Finset.Ico (k + 1) n).erase i,
          if j = i then 0 else |F k j|)
        + (if i = i then 0 else |F k i|)
        = ∑ j ∈ Finset.Ico (k + 1) n, if j = i then 0 else |F k j| :=
      Finset.sum_erase_add _ _ hims
    rw [if_pos rfl, add_zero] at h2
    have h3 : (∑ j ∈ (Finset.Ico (k + 1) n).erase i,
          if j = i then 0 else |F k j|)
        = ∑ j ∈ (Finset.Ico (k + 1) n).erase i, |F k j| :=
      Finset.sum_congr rfl fun j hj => if_neg (Finset.mem_erase.mp hj).1
    rw [← h2, h3]
    linarith
  have hv : (∑ j ∈ Finset.Ico (k + 1) n,
      if j = i then (0 : ℚ) else |F i k / F k k| * |F k j|)
      = |F i k / F k k| * ∑ j ∈ Finset.Ico (k + 1) n,
          if j = i then 0 else |F k j| := by
    rw [Finset.mul_sum]
    refine Finset.sum_congr rfl fun j _ => ?_
    by_cases hji : j = i
    · rw [if_pos hji, if_pos hji, mul_zero]
    · rw [if_neg hji, if_neg hji]
  have hTle : (∑ j ∈ Finset.Ico (k + 1) n, if j = i then 0 else |F k j|)
      ≤ |F k k| - |F k i| := by linarith
  have hmul1 : |F i k / F k k| * (∑ j ∈ Finset.Ico (k + 1) n,
      if j = i then 0 else |F k j|)
      ≤ |F i k / F k k| * (|F k k| - |F k i|) :=
    mul_le_mul_of_nonneg_left hTle (abs_nonneg _)
  have hcancel : |F i k / F k k| * |F k k| = |F i k| := by
    rw [abs_div, div_mul_cancel₀ _ (abs_ne_zero.mpr hpiv)]
  have hlmul : |F i k / F k k| * (|F k k| - |F k i|)
      = |F i k| - |F i k / F k k| * |F k i| := by
    rw [mul_sub, hcancel]
  have habs2 : |F i k / F k k * F k i| = |F i k / F k k| * |F k i| :=
    abs_mul _ _
  have hrhs : |F i i| - |F i k / F k k * F k i|
      ≤ |F i i - F i k / F k k * F k i| := abs_sub_abs_le_abs_sub _ _
  rw [habs2] at hrhs
  linarith

theorem sddRowFrom_delim {n p q : ℕ} {M : ℕ → ℕ → ℚ} (hB : BandedMat n p q M)
    (hs : sddRow n M) : ∀ k, sddRowFrom k n (delim p q M k) := by
  intro k
  induction k with
  | zero => exact hs
  | succ m ih => exact sddRowFrom_dstep (delim_banded hB m) ih

theorem sddRow_pivotsNZ {n p q : ℕ} {M : ℕ → ℕ → ℚ} (hB : BandedMat n p q M)
    (hs : sddRow n M) : pivotsNZ n p q M := fun k hk =>
  sddRowFrom_piv (sddRowFrom_delim hB hs k) hk

theorem sddColFrom_piv {k n : ℕ} {F : ℕ → ℕ → ℚ} (hs : sddColFrom k n F)
    (hk : k < n) : F k k ≠ 0 := by
  intro h0
  have h1 := hs k le_rfl hk
  have h2 : (0 : ℚ) ≤ ∑ i ∈ Finset.Ico k n, if i = k then 0 else |F i k| :=
    Finset.sum_nonneg fun i _ => by
      by_cases hi : i = k
      · rw [if_pos hi]
      · rw [if_neg hi]; exact abs_nonneg _
  rw [h0, abs_zero] at h1
  linarith

theorem sddColFrom_dstep {n p q k : ℕ} {F : ℕ → ℕ → ℚ} (hB : BandedMat n p q F)
    (hs : sddColFrom k n F) : sddColFrom (k + 1) n (dstep p q k F) := by
  intro j hjk hjn
  have hkn : k < n := by omega
  have hpiv : F k k ≠ 0 := sddColFrom_piv hs hkn
  have hpiva : |F k k| ≠ 0 := abs_ne_zero.mpr hpiv
  have hpivp : (0 : ℚ) < |F k k| := lt_of_le_of_ne (abs_nonneg _) (Ne.symm hpiva)
  have hjms : j ∈ Finset.Ico (k + 1) n := Finset.mem_Ico.mpr ⟨hjk, hjn⟩
  have hkms : k ∉ Finset.Ico (k + 1) n := by
    intro hc
    exact absurd (Finset.mem_Ico.mp hc).1 (by omega)
  have hins : Finset.Ico k n = insert k (Finset.Ico (k + 1) n) := by
    rw [← Nat.Ico_insert_succ_left hkn]
  have hactive : ∀ i2, k < i2 →
      dstep p q k F i2 j = F i2 j - F i2 k / F k k * F k j := fun i2 hi2 =>
    dstep_active hB hi2 (by omega)
  have hgoal_sum : (∑ i ∈ Finset.Ico (k + 1) n,
      if i = j then 0 else |dstep p q k F i j|)
      = ∑ i ∈ Finset.Ico (k + 1) n,
        if i = j then 0 else |F i j - F i k / F k k * F k j| := by
    refine Finset.sum_congr rfl fun i hi => ?_
    by_cases hij : i = j
    · rw [if_pos hij, if_pos hij]
    · rw [if_neg hij, if_neg hij, hactive i (Finset.mem_Ico.mp hi).1]
  rw [hgoal_sum, hactive j (by omega)]
  have hterm : ∀ i ∈ Finset.Ico (k + 1) n,
      (if i = j then 0 else |F i j - F i k / F k k * F k j|)
        ≤ (if i = j then 0 else |F i j|)
          + (if i = j then (0 : ℚ) else |F i k| / |F k k| * |F k j|) := by
    intro i _
    by_cases hij : i = j
    · rw [if_pos hij, if_pos hij, if_pos hij]; norm_num
    · rw [if_neg hij, if_neg hij, if_neg hij, ← abs_div, ← abs_mul]
      exact abs_sub_le_abs_add_abs _ _
  have hsum1 : (∑ i ∈ Finset.Ico (k + 1) n,
      if i = j then 0 else |F i j - F i k / F k k * F k j|)
      ≤ (∑ i ∈ Finset.Ico (k + 1) n, if i = j then 0 else |F i j|)
        + ∑ i ∈ Finset.Ico (k + 1) n,
            if i = j then (0 : ℚ) else |F i k| / |F k k| * |F k j| := by
    rw [← Finset.sum_add_distrib]
    exact Finset.sum_le_sum hterm
  have hcol_j := hs j (by omega) hjn
  rw [hins, Finset.sum_insert hkms, if_neg (show ¬(k = j) by omega)] at hcol_j
  have hbound1 : (∑ i ∈ Finset.Ico (k + 1) n, if i = j then 0 else |F i j|)
      < |F j j| - |F k j| := by linarith
  have hcol_k := hs k le_rfl hkn
  rw [hins, Finset.sum_insert hkms, if_pos rfl, zero_add] at hcol_k
  have hTk : (∑ i ∈ Finset.Ico (k + 1) n, if i = k then 0 else |F i k|)
      = ∑ i ∈ Finset.Ico (k + 1) n, |F i k| := by
    refine Finset.sum_congr rfl fun i hi => ?_
    rw [if_neg (show ¬(i = k) by
      have := (Finset.mem_Ico.mp hi).1; omega)]
  rw [hTk] at hcol_k
  have hT : (∑ i ∈ Finset.Ico (k + 1) n, if i = j then 0 else |F i k|)
      = (∑ i ∈ Finset.Ico (k + 1) n, |F i k|) - |F j k| := by
    have h1 : (∑ i ∈ (Finset.Ico (k + 1) n).erase j, |F i k|) + |F j k|
        = ∑ i ∈ Finset.Ico (k + 1) n, |F i k| :=
      Finset.sum_erase_add _ _ hjms
    have h2 : (∑ i ∈ (Finset.Ico (k + 1) n).erase j,
          if i = j then 0 else |F i k|)
        + (if j = j then 0 else |F j k|)
        = ∑ i ∈ Finset.Ico (k + 1) n, if i = j then 0 else |F i k| :=
      Finset.sum_erase_add _ _ hjms
    rw [if_pos rfl, add_zero] at h2
    have h3 : (∑ i ∈ (Finset.Ico (k + 1) n).erase j,
          if i = j then 0 else |F i k|)
        = ∑ i ∈ (Finset.Ico (k + 1) n).erase j, |F i k| :=
      Finset.sum_congr rfl fun i hi => if_neg (Finset.mem_erase.mp hi).1
    rw [← h2, h3]
    linarith
  have hv : (∑ i ∈ Finset.Ico (k + 1) n,
      if i = j then (0 : ℚ) else |F i k| / |F k k| * |F k j|)
      = (∑ i ∈ Finset.Ico (k + 1) n, if i = j then 0 else |F i k|)
          / |F k k| * |F k j| := by
    rw [Finset.sum_div, Finset.sum_mul]
    refine Finset.sum_congr rfl fun i _ => ?_
    by_cases hij : i = j
    · rw [if_pos hij, if_pos hij, zero_div, zero_mul]
    · rw [if_neg hij, if_neg hij]
  have hBle : (∑ i ∈ Finset.Ico (k + 1) n, if i = j then 0 else |F i k|)
      ≤ |F k k| - |F j k| := by linarith
  have hdivle : (∑ i ∈ Finset.Ico (k + 1) n, if i = j then 0 else |F i k|)
        / |F k k|
      ≤ (|F k k| - |F j k|) / |F k k| :=
    (div_le_div_iff_of_pos_right hpivp).mpr hBle
  have hmul1 : (∑ i ∈ Finset.Ico (k + 1) n, if i = j then 0 else |F i k|)
        / |F k k| * |F k j|
      ≤ (|F k k| - |F j k|) / |F k k| * |F k j| :=
    mul_le_mul_of_nonneg_right hdivle (abs_nonneg _)
  have hlmul : (|F k k| - |F j k|) / |F k k| * |F k j|
      = |F k j| - |F j k| / |F k k| * |F k j| := by
    field_simp
    ring
  have habs2 : |F j k / F k k * F k j| = |F j k| / |F k k| * |F k j| := by
    rw [abs_mul, abs_div]
  have hrhs : |F j j| - |F j k / F k k * F k j|
      ≤ |F j j - F j k / F k k * F k j| := abs_sub_abs_le_abs_sub _ _
  rw [habs2] at hrhs
  linarith

theorem sddColFrom_delim {n p q : ℕ} {M : ℕ → ℕ → ℚ} (hB : BandedMat n p q M)
    (hs : sddCol n M) : ∀ k, sddColFrom k n (delim p q M k) := by
  intro k
  induction k with
  | zero => exact hs
  | succ m ih => exact sddColFrom_dstep (delim_banded hB m) ih

theorem sddCol_pivotsNZ {n p q : ℕ} {M : ℕ → ℕ → ℚ} (hB : BandedMat n p q M)
    (hs : sddCol n M) : pivotsNZ n p q M := fun k hk =>
  sddColFrom_piv (sddColFrom_delim hB hs k) hk

/-!
## Simulation: the banded loops compute the dense elimination
-/

theorem entry_banded (S : BandedSystem) :
    BandedMat S.N S.lowerBw S.upperBw S.entry := by
  intro i j h
  unfold BandedSystem.entry
  rw [if_neg]
  intro hc
  obtain ⟨h1, h2, h3⟩ := hc
  rcases h with h | h | h
  · omega
  · omega
  · exact h h3

theorem entry_eq_get (S : BandedSystem) {i j : ℕ} (hi : i < S.N) (hj : j < S.N)
    (hb : inBand S.lowerBw S.upperBw i j) : S.entry i j = S.get i j := by
  unfold BandedSystem.entry
  rw [if_pos ⟨hi, hj, hb⟩]

theorem get_set_ne_row (S : BandedSystem) (hN : 0 < S.N) {i a jcol : ℕ}
    (v : ℚ) (hia : i ≠ a) : (S.set i jcol v).get a jcol = S.get a jcol := by
  apply S.get_set_ne
  unfold BandedSystem.offsetOf
  intro h
  have h2 : ((a : ℤ) - jcol + S.upperBw) * S.N
      = ((i : ℤ) - jcol + S.upperBw) * S.N := by omega
  have h3 := mul_right_cancel₀ (show ((S.N : ℤ)) ≠ 0 by positivity) h2
  omega

/-- The column-division loop of `factorizeStep`. -/
theorem divLoop_get (k : ℕ) (cVl : ℚ) :
    ∀ (c lo : ℕ) (T : BandedSystem), 0 < T.N → k < T.N → k < lo →
      (∀ i, lo ≤ i → i < lo + c → i < T.N ∧ (i : ℤ) - k ≤ T.lowerBw) →
      ∀ a b : ℕ, a < T.N → b < T.N → inBand T.lowerBw T.upperBw a b →
        ((List.range' lo c).foldl
            (fun T2 i => if T2.get i k ≠ 0 then T2.set i k (T2.get i k / cVl)
              else T2) T).get a b
          = if b = k ∧ lo ≤ a ∧ a < lo + c
            then (if T.get a k ≠ 0 then T.get a k / cVl else T.get a k)
            else T.get a b := by
  intro c
  induction c with
  | zero =>
      intro lo T hN hkN hklo hrange a b ha hb hband
      rw [if_neg (by omega)]
      rfl
  | succ m ih =>
      intro lo T hN hkN hklo hrange a b ha hb hband
      rw [List.range'_succ, List.foldl_cons]
      have hlo := hrange lo le_rfl (by omega)
      have hbandlok : inBand T.lowerBw T.upperBw lo k := ⟨hlo.2, by omega⟩
      have hbody : (if T.get lo k ≠ 0 then T.set lo k (T.get lo k / cVl)
          else T)
          = T.set lo k (if T.get lo k ≠ 0 then T.get lo k / cVl
              else T.get lo k) := by
        by_cases h : T.get lo k ≠ 0
        · rw [if_pos h, if_pos h]
        · rw [if_neg h, if_neg h, T.set_get_self lo k]
      rw [hbody]
      set dval := if T.get lo k ≠ 0 then T.get lo k / cVl else T.get lo k
        with hdval
      set T2 := T.set lo k dval with hT2
      have hrange2 : ∀ i, lo + 1 ≤ i → i < lo + 1 + m →
          i < T2.N ∧ (i : ℤ) - k ≤ T2.lowerBw := fun i h1 h2 =>
        hrange i (by omega) (by omega)
      have hres := ih (lo + 1) T2 hN hkN (by omega) hrange2 a b ha hb hband
      rw [hres]
      have hgetak : ∀ a2, a2 ≠ lo → T2.get a2 k = T.get a2 k := fun a2 ha2 =>
        get_set_ne_row T hN dval (fun h => ha2 h.symm)
      by_cases hc1 : b = k ∧ lo + 1 ≤ a ∧ a < lo + 1 + m
      · rw [if_pos hc1,
          if_pos (show b = k ∧ lo ≤ a ∧ a < lo + (m + 1) by omega)]
        rw [hgetak a (by omega)]
      · rw [if_neg hc1]
        by_cases hc2 : b = k ∧ a = lo
        · obtain ⟨hbk, halo⟩ := hc2
          subst hbk
          subst halo
          rw [if_pos (show b = b ∧ a ≤ a ∧ a < a + (m + 1) from
            ⟨rfl, le_rfl, by omega⟩)]
          rw [hT2]
          exact T.get_set_self a b dval
        · rw [if_neg (show ¬(b = k ∧ lo ≤ a ∧ a < lo + (m + 1)) by omega)]
          have hne : lo ≠ a ∨ k ≠ b := by
            by_cases hbk : b = k
            · exact Or.inl fun h => hc2 ⟨hbk, h.symm⟩
            · exact Or.inr fun h => hbk h.symm
          rw [hT2]
          exact T.get_set_ne_of_inBand hN dval hkN hb hbandlok hband hne

/-- The trailing-block update loop of `factorizeStep` for one column `j`. -/
theorem updLoop_get (k j : ℕ) (cj : ℚ) :
    ∀ (c lo : ℕ) (T : BandedSystem), 0 < T.N → k < T.N → j < T.N → k < j →
      ((j : ℤ) - k ≤ T.upperBw) → k < lo →
      (∀ i, lo ≤ i → i < lo + c → i < T.N ∧ (i : ℤ) - k ≤ T.lowerBw) →
      ∀ a b : ℕ, a < T.N → b < T.N → inBand T.lowerBw T.upperBw a b →
        ((List.range' lo c).foldl
            (fun T2 i => if T2.get i k ≠ 0 then
                T2.set i j (T2.get i j - T2.get i k * cj) else T2) T).get a b
          = if b = j ∧ lo ≤ a ∧ a < lo + c
            then T.get a b - T.get a k * cj
            else T.get a b := by
  intro c
  induction c with
  | zero =>
      intro lo T hN hkN hjN hkj hjq hklo hrange a b ha hb hband
      rw [if_neg (by omega)]
      rfl
  | succ m ih =>
      intro lo T hN hkN hjN hkj hjq hklo hrange a b ha hb hband
      rw [List.range'_succ, List.foldl_cons]
      have hlo := hrange lo le_rfl (by omega)
      have hbandloj : inBand T.lowerBw T.upperBw lo j := ⟨by omega, by omega⟩
      have hbandlok : inBand T.lowerBw T.upperBw lo k := ⟨hlo.2, by omega⟩
      have hbody : (if T.get lo k ≠ 0 then
          T.set lo j (T.get lo j - T.get lo k * cj) else T)
          = T.set lo j (T.get lo j - T.get lo k * cj) := by
        by_cases h : T.get lo k ≠ 0
        · rw [if_pos h]
        · rw [if_neg h, not_ne_iff.mp h, zero_mul, sub_zero,
            T.set_get_self lo j]
      rw [hbody]
      set wval := T.get lo j - T.get lo k * cj with hwval
      set T2 := T.set lo j wval with hT2
      have hrange2 : ∀ i, lo + 1 ≤ i → i < lo + 1 + m →
          i < T2.N ∧ (i : ℤ) - k ≤ T2.lowerBw := fun i h1 h2 =>
        hrange i (by omega) (by omega)
      have hres := ih (lo + 1) T2 hN hkN hjN hkj hjq (by omega) hrange2
        a b ha hb hband
      rw [hres]
      have hgetk : ∀ a2, a2 < T.N → k < a2 → (a2 : ℤ) - k ≤ T.lowerBw →
          T2.get a2 k = T.get a2 k := by
        intro a2 ha2 hka2 ha2k
        rw [hT2]
        exact T.get_set_ne_of_inBand hN wval hjN hkN hbandloj
          ⟨ha2k, by omega⟩ (Or.inr (by omega))
      by_cases hc1 : b = j ∧ lo + 1 ≤ a ∧ a < lo + 1 + m
      · rw [if_pos hc1,
          if_pos (show b = j ∧ lo ≤ a ∧ a < lo + (m + 1) by omega)]
        have hT2ab : T2.get a b = T.get a b := by
          rw [hT2, hc1.1]
          exact get_set_ne_row T hN wval (by omega)
        rw [hT2ab, hgetk a ha (by omega) (hrange a (by omega) (by omega)).2]
      · rw [if_neg hc1]
        by_cases hc2 : b = j ∧ a = lo
        · obtain ⟨hbj, halo⟩ := hc2
          subst hbj
          subst halo
          rw [if_pos (show b = b ∧ a ≤ a ∧ a < a + (m + 1) from
            ⟨rfl, le_rfl, by omega⟩)]
          rw [hT2]
          exact T.get_set_self a b wval
        · rw [if_neg (show ¬(b = j ∧ lo ≤ a ∧ a < lo + (m + 1)) by omega)]
          have hne : lo ≠ a ∨ j ≠ b := by
            by_cases hbj : b = j
            · exact Or.inl fun h => hc2 ⟨hbj, h.symm⟩
            · exact Or.inr fun h => hbj h.symm
          rw [hT2]
          exact T.get_set_ne_of_inBand hN wval hjN hb hbandloj hband hne


/-- The outer column loop of `factorizeStep` (all trailing-block updates). -/
theorem colLoop_get (k rc : ℕ) :
    ∀ (c jlo : ℕ) (T : BandedSystem), 0 < T.N → k < T.N → k < jlo →
      (∀ j2, jlo ≤ j2 → j2 < jlo + c → j2 < T.N ∧ (j2 : ℤ) - k ≤ T.upperBw) →
      (∀ i, k + 1 ≤ i → i < k + 1 + rc → i < T.N ∧ (i : ℤ) - k ≤ T.lowerBw) →
      ∀ a b : ℕ, a < T.N → b < T.N → inBand T.lowerBw T.upperBw a b →
        ((List.range' jlo c).foldl
            (fun (T2 : BandedSystem) j =>
              if T2.get k j ≠ 0 then
                (List.range' (k + 1) rc).foldl
                  (fun T3 i => if T3.get i k ≠ 0 then
                      T3.set i j (T3.get i j - T3.get i k * T2.get k j)
                    else T3) T2
              else T2) T).get a b
          = if (k + 1 ≤ a ∧ a < k + 1 + rc) ∧ (jlo ≤ b ∧ b < jlo + c)
            then T.get a b - T.get a k * T.get k b
            else T.get a b := by
  intro c
  induction c with
  | zero =>
      intro jlo T hN hkN hkjlo hcols hrows a b ha hb hband
      rw [if_neg (by omega)]
      rfl
  | succ m ih =>
      intro jlo T hN hkN hkjlo hcols hrows a b ha hb hband
      rw [List.range'_succ, List.foldl_cons]
      have hjlo := hcols jlo le_rfl (by omega)
      have hT' : ∀ a2 b2 : ℕ, a2 < T.N → b2 < T.N →
          inBand T.lowerBw T.upperBw a2 b2 →
          (if T.get k jlo ≠ 0 then
              (List.range' (k + 1) rc).foldl
                (fun T3 i => if T3.get i k ≠ 0 then
                    T3.set i jlo (T3.get i jlo - T3.get i k * T.get k jlo)
                  else T3) T
            else T).get a2 b2
            = if b2 = jlo ∧ k + 1 ≤ a2 ∧ a2 < k + 1 + rc
              then T.get a2 b2 - T.get a2 k * T.get k jlo
              else T.get a2 b2 := by
        intro a2 b2 ha2 hb2 hband2
        by_cases hcj : T.get k jlo ≠ 0
        · rw [if_pos hcj]
          exact updLoop_get k jlo (T.get k jlo) rc (k + 1) T hN hkN hjlo.1
            (by omega) hjlo.2 (by omega) (fun i h1 h2 => hrows i h1 h2)
            a2 b2 ha2 hb2 hband2
        · rw [if_neg hcj, not_ne_iff.mp hcj, mul_zero]
          by_cases hcc : b2 = jlo ∧ k + 1 ≤ a2 ∧ a2 < k + 1 + rc
          · rw [if_pos hcc, sub_zero]
          · rw [if_neg hcc]
      set T1 := (if T.get k jlo ≠ 0 then
          (List.range' (k + 1) rc).foldl
            (fun T3 i => if T3.get i k ≠ 0 then
                T3.set i jlo (T3.get i jlo - T3.get i k * T.get k jlo)
              else T3) T
        else T) with hT1def
      have hfields : T1.N = T.N ∧ T1.lowerBw = T.lowerBw
          ∧ T1.upperBw = T.upperBw := by
        rw [hT1def]
        by_cases hcj : T.get k jlo ≠ 0
        · rw [if_pos hcj]
          refine foldl_induction
            (fun (T2 : BandedSystem) => T2.N = T.N ∧ T2.lowerBw = T.lowerBw
              ∧ T2.upperBw = T.upperBw) _ _ _ ⟨rfl, rfl, rfl⟩ ?_
          intro T3 i hP
          by_cases h3 : T3.get i k ≠ 0
          · rw [if_pos h3]
            exact hP
          · rw [if_neg h3]
            exact hP
        · rw [if_neg hcj]
          exact ⟨rfl, rfl, rfl⟩
      obtain ⟨hf1, hf2, hf3⟩ := hfields
      have hres := ih (jlo + 1) T1 (by rw [hf1]; exact hN)
        (by rw [hf1]; exact hkN) (by omega)
        (fun j2 h1 h2 => by
          rw [hf1, hf3]
          exact hcols j2 (by omega) (by omega))
        (fun i h1 h2 => by
          rw [hf1, hf2]
          exact hrows i h1 h2)
        a b (by rw [hf1]; exact ha) (by rw [hf1]; exact hb)
        (by rw [hf2, hf3]; exact hband)
      rw [hres]
      have hT1ab := hT' a b ha hb hband
      by_cases hra : k + 1 ≤ a ∧ a < k + 1 + rc
      · have hbandak : inBand T.lowerBw T.upperBw a k :=
          ⟨(hrows a hra.1 hra.2).2, by omega⟩
        have hT1ak := hT' a k ha hkN hbandak
        by_cases hb1 : jlo + 1 ≤ b ∧ b < jlo + 1 + m
        · have hbandkb : inBand T.lowerBw T.upperBw k b :=
            ⟨by omega, (hcols b (by omega) (by omega)).2⟩
          have hT1kb := hT' k b hkN hb hbandkb
          rw [if_pos (show (k + 1 ≤ a ∧ a < k + 1 + rc)
            ∧ (jlo + 1 ≤ b ∧ b < jlo + 1 + m) from ⟨hra, hb1⟩)]
          rw [hT1ab, hT1ak, hT1kb]
          rw [if_neg (show ¬(b = jlo ∧ k + 1 ≤ a ∧ a < k + 1 + rc) by omega),
            if_neg (show ¬(k = jlo ∧ k + 1 ≤ a ∧ a < k + 1 + rc) by omega),
            if_neg (show ¬(b = jlo ∧ k + 1 ≤ k ∧ k < k + 1 + rc) by omega)]
          rw [if_pos (show (k + 1 ≤ a ∧ a < k + 1 + rc)
            ∧ (jlo ≤ b ∧ b < jlo + (m + 1)) by omega)]
        · rw [if_neg (show ¬((k + 1 ≤ a ∧ a < k + 1 + rc)
            ∧ (jlo + 1 ≤ b ∧ b < jlo + 1 + m)) by omega)]
          rw [hT1ab]
          by_cases hbjlo : b = jlo
          · subst hbjlo
            rw [if_pos (show b = b ∧ k + 1 ≤ a ∧ a < k + 1 + rc from
              ⟨rfl, hra⟩)]
            rw [if_pos (show (k + 1 ≤ a ∧ a < k + 1 + rc)
              ∧ (b ≤ b ∧ b < b + (m + 1)) from ⟨hra, le_rfl, by omega⟩)]
          · rw [if_neg (show ¬(b = jlo ∧ k + 1 ≤ a ∧ a < k + 1 + rc) by
              omega)]
            rw [if_neg (show ¬((k + 1 ≤ a ∧ a < k + 1 + rc)
              ∧ (jlo ≤ b ∧ b < jlo + (m + 1))) by omega)]
      · rw [if_neg (show ¬((k + 1 ≤ a ∧ a < k + 1 + rc)
          ∧ (jlo + 1 ≤ b ∧ b < jlo + 1 + m)) by omega)]
        rw [hT1ab]
        rw [if_neg (show ¬(b = jlo ∧ k + 1 ≤ a ∧ a < k + 1 + rc) by omega)]
        rw [if_neg (show ¬((k + 1 ≤ a ∧ a < k + 1 + rc)
          ∧ (jlo ≤ b ∧ b < jlo + (m + 1))) by omega)]

theorem factorizeStep_fields (k : ℕ) (S : BandedSystem) :
    (BandedSystem.factorizeStep k S).N = S.N ∧
    (BandedSystem.factorizeStep k S).lowerBw = S.lowerBw ∧
    (BandedSystem.factorizeStep k S).upperBw = S.upperBw := by
  unfold BandedSystem.factorizeStep foldIdx
  refine foldl_induction
    (fun (T : BandedSystem) => T.N = S.N ∧ T.lowerBw = S.lowerBw
      ∧ T.upperBw = S.upperBw) _ _ _ ?_ ?_
  · refine foldl_induction
      (fun (T : BandedSystem) => T.N = S.N ∧ T.lowerBw = S.lowerBw
        ∧ T.upperBw = S.upperBw) _ _ _ ⟨rfl, rfl, rfl⟩ ?_
    intro T i hP
    dsimp only
    by_cases h : T.get i k ≠ 0
    · rw [if_pos h]
      exact hP
    · rw [if_neg h]
      exact hP
  · intro T j hP
    dsimp only
    by_cases h : T.get k j ≠ 0
    · rw [if_pos h]
      refine foldl_induction
        (fun (T2 : BandedSystem) => T2.N = S.N ∧ T2.lowerBw = S.lowerBw
          ∧ T2.upperBw = S.upperBw) _ _ _ hP ?_
      intro T2 i hP2
      dsimp only
      by_cases h2 : T2.get i k ≠ 0
      · rw [if_pos h2]
        exact hP2
      · rw [if_neg h2]
        exact hP2
    · rw [if_neg h]
      exact hP

theorem entry_factorizeStep (k : ℕ) (S : BandedSystem) (hk : k + 1 < S.N) :
    (BandedSystem.factorizeStep k S).entry
      = dstep S.lowerBw S.upperBw k S.entry := by
  have hN : 0 < S.N := by omega
  set S1 := (List.range' (k + 1)
      (min (k + S.lowerBw) (S.N - 1) + 1 - (k + 1))).foldl
    (fun T2 i => if T2.get i k ≠ 0 then T2.set i k (T2.get i k / S.get k k)
      else T2) S with hS1def
  have heq : BandedSystem.factorizeStep k S
      = (List.range' (k + 1)
          (min (k + S.upperBw) (S.N - 1) + 1 - (k + 1))).foldl
        (fun (T2 : BandedSystem) j =>
          if T2.get k j ≠ 0 then
            (List.range' (k + 1)
                (min (k + S.lowerBw) (S.N - 1) + 1 - (k + 1))).foldl
              (fun T3 i => if T3.get i k ≠ 0 then
                  T3.set i j (T3.get i j - T3.get i k * T2.get k j)
                else T3) T2
          else T2) S1 := rfl
  have hS1f : S1.N = S.N ∧ S1.lowerBw = S.lowerBw ∧ S1.upperBw = S.upperBw := by
    rw [hS1def]
    refine foldl_induction
      (fun (T : BandedSystem) => T.N = S.N ∧ T.lowerBw = S.lowerBw
        ∧ T.upperBw = S.upperBw) _ _ _ ⟨rfl, rfl, rfl⟩ ?_
    intro T i hP
    dsimp only
    by_cases h : T.get i k ≠ 0
    · rw [if_pos h]
      exact hP
    · rw [if_neg h]
      exact hP
  have hdiv : ∀ a2 b2, a2 < S.N → b2 < S.N →
      inBand S.lowerBw S.upperBw a2 b2 →
      S1.get a2 b2
        = if b2 = k ∧ k + 1 ≤ a2 ∧ a2 ≤ min (k + S.lowerBw) (S.N - 1)
          then (if S.get a2 k ≠ 0 then S.get a2 k / S.get k k else S.get a2 k)
          else S.get a2 b2 := by
    intro a2 b2 h1 h2 h3
    have hres := divLoop_get k (S.get k k)
      (min (k + S.lowerBw) (S.N - 1) + 1 - (k + 1)) (k + 1) S hN (by omega)
      (by omega) (fun i hi1 hi2 => ⟨by omega, by omega⟩) a2 b2 h1 h2 h3
    rw [hS1def, hres]
    by_cases hc : b2 = k ∧ k + 1 ≤ a2 ∧ a2 ≤ min (k + S.lowerBw) (S.N - 1)
    · rw [if_pos (show b2 = k ∧ k + 1 ≤ a2 ∧ a2 < k + 1
        + (min (k + S.lowerBw) (S.N - 1) + 1 - (k + 1)) by omega), if_pos hc]
    · rw [if_neg (show ¬(b2 = k ∧ k + 1 ≤ a2 ∧ a2 < k + 1
        + (min (k + S.lowerBw) (S.N - 1) + 1 - (k + 1))) by omega), if_neg hc]
  have hcolget : ∀ a2 b2, a2 < S.N → b2 < S.N →
      inBand S.lowerBw S.upperBw a2 b2 →
      (BandedSystem.factorizeStep k S).get a2 b2
        = if (k + 1 ≤ a2 ∧ a2 ≤ min (k + S.lowerBw) (S.N - 1))
            ∧ (k + 1 ≤ b2 ∧ b2 ≤ min (k + S.upperBw) (S.N - 1))
          then S1.get a2 b2 - S1.get a2 k * S1.get k b2
          else S1.get a2 b2 := by
    intro a2 b2 h1 h2 h3
    have hres := colLoop_get k
      (min (k + S.lowerBw) (S.N - 1) + 1 - (k + 1))
      (min (k + S.upperBw) (S.N - 1) + 1 - (k + 1)) (k + 1) S1
      (by rw [hS1f.1]; exact hN) (by rw [hS1f.1]; omega) (by omega)
      (fun j2 hj1 hj2 => ⟨by rw [hS1f.1]; omega, by rw [hS1f.2.2]; omega⟩)
      (fun i hi1 hi2 => ⟨by rw [hS1f.1]; omega, by rw [hS1f.2.1]; omega⟩)
      a2 b2 (by rw [hS1f.1]; exact h1) (by rw [hS1f.1]; exact h2)
      (by rw [hS1f.2.1, hS1f.2.2]; exact h3)
    rw [heq, hres]
    by_cases hc : (k + 1 ≤ a2 ∧ a2 ≤ min (k + S.lowerBw) (S.N - 1))
        ∧ (k + 1 ≤ b2 ∧ b2 ≤ min (k + S.upperBw) (S.N - 1))
    · rw [if_pos (show (k + 1 ≤ a2 ∧ a2 < k + 1
          + (min (k + S.lowerBw) (S.N - 1) + 1 - (k + 1)))
        ∧ (k + 1 ≤ b2 ∧ b2 < k + 1
          + (min (k + S.upperBw) (S.N - 1) + 1 - (k + 1))) by omega),
        if_pos hc]
    · rw [if_neg (show ¬((k + 1 ≤ a2 ∧ a2 < k + 1
          + (min (k + S.lowerBw) (S.N - 1) + 1 - (k + 1)))
        ∧ (k + 1 ≤ b2 ∧ b2 < k + 1
          + (min (k + S.upperBw) (S.N - 1) + 1 - (k + 1)))) by omega),
        if_neg hc]
  funext a b
  have hFf := factorizeStep_fields k S
  show (if a < (BandedSystem.factorizeStep k S).N
        ∧ b < (BandedSystem.factorizeStep k S).N
        ∧ inBand (BandedSystem.factorizeStep k S).lowerBw
            (BandedSystem.factorizeStep k S).upperBw a b
      then (BandedSystem.factorizeStep k S).get a b else 0)
    = dstep S.lowerBw S.upperBw k S.entry a b
  rw [hFf.1, hFf.2.1, hFf.2.2]
  by_cases hin : a < S.N ∧ b < S.N ∧ inBand S.lowerBw S.upperBw a b
  · rw [if_pos hin]
    obtain ⟨ha, hb, hband⟩ := hin
    rw [hcolget a b ha hb hband]
    simp only [dstep]
    by_cases hbk : b = k
    · subst hbk
      rw [if_neg (show ¬((b + 1 ≤ a ∧ a ≤ min (b + S.lowerBw) (S.N - 1))
        ∧ (b + 1 ≤ b ∧ b ≤ min (b + S.upperBw) (S.N - 1))) by omega)]
      rw [hdiv a b ha (by omega) hband]
      by_cases hrow : b < a ∧ a ≤ b + S.lowerBw
      · rw [if_pos (show b = b ∧ b + 1 ≤ a
          ∧ a ≤ min (b + S.lowerBw) (S.N - 1) by omega)]
        rw [if_pos (show b < a ∧ a ≤ b + S.lowerBw ∧ b = b by omega)]
        rw [entry_eq_get S ha (by omega) hband,
          entry_eq_get S (by omega) (by omega)
            (⟨by omega, by omega⟩ : inBand S.lowerBw S.upperBw b b)]
        by_cases hz : S.get a b = 0
        · rw [if_neg (not_ne_iff.mpr hz), hz, zero_div]
        · rw [if_pos hz]
      · rw [if_neg (show ¬(b = b ∧ b + 1 ≤ a
          ∧ a ≤ min (b + S.lowerBw) (S.N - 1)) by omega)]
        rw [if_neg (show ¬(b < a ∧ a ≤ b + S.lowerBw ∧ b = b) by omega),
          if_neg (show ¬(b < a ∧ a ≤ b + S.lowerBw ∧ b < b
            ∧ b ≤ b + S.upperBw) by omega)]
        rw [entry_eq_get S ha (by omega) hband]
    · have h1 : S1.get a b = S.get a b := by
        rw [hdiv a b ha hb hband, if_neg (show ¬(b = k ∧ k + 1 ≤ a
          ∧ a ≤ min (k + S.lowerBw) (S.N - 1)) by omega)]
      by_cases hrc : (k + 1 ≤ a ∧ a ≤ min (k + S.lowerBw) (S.N - 1))
          ∧ (k + 1 ≤ b ∧ b ≤ min (k + S.upperBw) (S.N - 1))
      · rw [if_pos hrc, h1]
        obtain ⟨⟨hra1, hra2⟩, hrb1, hrb2⟩ := hrc
        have hbandak : inBand S.lowerBw S.upperBw a k := ⟨by omega, by omega⟩
        have hbandkb : inBand S.lowerBw S.upperBw k b := ⟨by omega, by omega⟩
        have h2 : S1.get a k
            = if S.get a k ≠ 0 then S.get a k / S.get k k else S.get a k := by
          rw [hdiv a k ha (by omega) hbandak, if_pos (show k = k ∧ k + 1 ≤ a
            ∧ a ≤ min (k + S.lowerBw) (S.N - 1) by omega)]
        have h3 : S1.get k b = S.get k b := by
          rw [hdiv k b (by omega) hb hbandkb, if_neg (show ¬(b = k
            ∧ k + 1 ≤ k ∧ k ≤ min (k + S.lowerBw) (S.N - 1)) by omega)]
        rw [h2, h3]
        rw [if_neg (show ¬(k < a ∧ a ≤ k + S.lowerBw ∧ b = k) by omega),
          if_pos (show k < a ∧ a ≤ k + S.lowerBw ∧ k < b
            ∧ b ≤ k + S.upperBw by omega)]
        rw [entry_eq_get S ha hb hband, entry_eq_get S ha (by omega) hbandak,
          entry_eq_get S (by omega) (by omega)
            (⟨by omega, by omega⟩ : inBand S.lowerBw S.upperBw k k),
          entry_eq_get S (by omega) hb hbandkb]
        by_cases hz : S.get a k = 0
        · rw [if_neg (not_ne_iff.mpr hz), hz, zero_mul, zero_div, zero_mul]
        · rw [if_pos hz]
      · rw [if_neg hrc, h1]
        rw [if_neg (show ¬(k < a ∧ a ≤ k + S.lowerBw ∧ b = k) by omega),
          if_neg (show ¬(k < a ∧ a ≤ k + S.lowerBw ∧ k < b
            ∧ b ≤ k + S.upperBw) by omega)]
        rw [entry_eq_get S ha hb hband]
  · rw [if_neg hin]
    have hout : S.N ≤ a ∨ S.N ≤ b ∨ ¬ inBand S.lowerBw S.upperBw a b := by
      by_cases h1 : a < S.N
      · by_cases h2 : b < S.N
        · exact Or.inr (Or.inr fun hb2 => hin ⟨h1, h2, hb2⟩)
        · exact Or.inr (Or.inl (by omega))
      · exact Or.inl (by omega)
    exact (dstep_banded (entry_banded S) a b hout).symm

theorem factorizeLU_steps (S : BandedSystem) :
    ∀ m, m ≤ S.N - 1 →
      ((List.range m).foldl
          (fun T k2 => BandedSystem.factorizeStep k2 T) S).N = S.N
      ∧ ((List.range m).foldl
          (fun T k2 => BandedSystem.factorizeStep k2 T) S).lowerBw = S.lowerBw
      ∧ ((List.range m).foldl
          (fun T k2 => BandedSystem.factorizeStep k2 T) S).upperBw = S.upperBw
      ∧ ((List.range m).foldl
          (fun T k2 => BandedSystem.factorizeStep k2 T) S).entry
        = delim S.lowerBw S.upperBw S.entry m := by
  intro m
  induction m with
  | zero => exact fun _ => ⟨rfl, rfl, rfl, rfl⟩
  | succ m ih =>
      intro hm
      obtain ⟨ihN, ihp, ihq, ihe⟩ := ih (by omega)
      rw [List.range_succ, List.foldl_append, List.foldl_cons, List.foldl_nil]
      have hstep := entry_factorizeStep m
        ((List.range m).foldl (fun T k2 => BandedSystem.factorizeStep k2 T) S)
        (by rw [ihN]; omega)
      have hfs := factorizeStep_fields m
        ((List.range m).foldl (fun T k2 => BandedSystem.factorizeStep k2 T) S)
      refine ⟨by rw [hfs.1, ihN], by rw [hfs.2.1, ihp], by rw [hfs.2.2, ihq],
        ?_⟩
      rw [hstep, ihp, ihq, ihe]
      rfl

theorem factorizeLU_fields (S : BandedSystem) :
    (S.factorizeLU).N = S.N ∧ (S.factorizeLU).lowerBw = S.lowerBw
      ∧ (S.factorizeLU).upperBw = S.upperBw := by
  obtain ⟨h1, h2, h3, _⟩ := factorizeLU_steps S (S.N - 1) le_rfl
  exact ⟨h1, h2, h3⟩

theorem entry_factorizeLU (S : BandedSystem) :
    (S.factorizeLU).entry = delim S.lowerBw S.upperBw S.entry (S.N - 1) :=
  (factorizeLU_steps S (S.N - 1) le_rfl).2.2.2

theorem foldl_congr_mem {α β : Type} (f g : α → β → α) :
    ∀ (l : List β) (x : α), (∀ a b, b ∈ l → f a b = g a b) →
      l.foldl f x = l.foldl g x := by
  intro l
  induction l with
  | nil => intro x h; rfl
  | cons b t ih =>
      intro x h
      rw [List.foldl_cons, List.foldl_cons, h x b (List.mem_cons_self b t)]
      exact ih (g x b) (fun a b2 hb2 => h a b2 (List.mem_cons_of_mem b hb2))

/-- A row-subtraction loop touching each index at most once, read off at an
arbitrary index. -/
theorem subLoop_apply {V : Type} [AddCommGroup V] [Module ℚ V]
    (w : ℕ → ℚ) (j : ℕ) :
    ∀ (cnt lo : ℕ) (cv : ℕ → V), (j < lo ∨ lo + cnt ≤ j) →
      (List.range' lo cnt).foldl
        (fun c2 i => if w i ≠ 0 then Function.update c2 i (c2 i - w i • c2 j)
          else c2) cv
      = fun a => if lo ≤ a ∧ a < lo + cnt then cv a - w a • cv j
          else cv a := by
  intro cnt
  induction cnt with
  | zero =>
      intro lo cv hj
      funext a
      rw [if_neg (show ¬(lo ≤ a ∧ a < lo + 0) by omega)]
      rfl
  | succ m ih =>
      intro lo cv hj
      rw [List.range'_succ, List.foldl_cons]
      have hbody : (if w lo ≠ 0
            then Function.update cv lo (cv lo - w lo • cv j) else cv)
          = Function.update cv lo (cv lo - w lo • cv j) := by
        by_cases h : w lo ≠ 0
        · rw [if_pos h]
        · rw [if_neg h, not_ne_iff.mp h, zero_smul, sub_zero,
            Function.update_eq_self]
      rw [hbody]
      set cv1 := Function.update cv lo (cv lo - w lo • cv j) with hcv1
      rw [ih (lo + 1) cv1 (by omega)]
      funext a
      have hcv1j : cv1 j = cv j := by
        rw [hcv1, Function.update_apply, if_neg (show ¬(j = lo) by omega)]
      by_cases h1 : a = lo
      · subst h1
        rw [if_neg (show ¬(a + 1 ≤ a ∧ a < a + 1 + m) by omega),
          if_pos (show a ≤ a ∧ a < a + (m + 1) by omega)]
        rw [hcv1, Function.update_apply, if_pos rfl]
      · have hcv1a : cv1 a = cv a := by
          rw [hcv1, Function.update_apply, if_neg h1]
        by_cases h2 : lo + 1 ≤ a ∧ a < lo + 1 + m
        · rw [if_pos h2, if_pos (show lo ≤ a ∧ a < lo + (m + 1) by omega),
            hcv1a, hcv1j]
        · rw [if_neg h2, hcv1a,
            if_neg (show ¬(lo ≤ a ∧ a < lo + (m + 1)) by omega)]

theorem solve_eq_dense {V : Type} [AddCommGroup V] [Module ℚ V]
    (S : BandedSystem) (b : ℕ → V) :
    S.solve b = dback S.N S.upperBw S.get (dfwd S.N S.lowerBw S.get b) := by
  have hsolve : S.solve b
      = ((List.range S.N).reverse).foldl
          (fun c j =>
            (List.range' (j - S.upperBw) (j - (j - S.upperBw))).foldl
              (fun c2 i => if S.get i j ≠ 0
                then Function.update c2 i (c2 i - S.get i j • c2 j) else c2)
              (Function.update c j ((S.get j j)⁻¹ • c j)))
          ((List.range S.N).foldl
            (fun c j => foldIdx (j + 1) (min (j + S.lowerBw) (S.N - 1))
              (fun i c2 => if S.get i j ≠ 0
                then Function.update c2 i (c2 i - S.get i j • c2 j) else c2) c)
            b) := rfl
  have hfwd : (List.range S.N).foldl
      (fun c j => foldIdx (j + 1) (min (j + S.lowerBw) (S.N - 1))
        (fun i c2 => if S.get i j ≠ 0
          then Function.update c2 i (c2 i - S.get i j • c2 j) else c2) c) b
      = dfwd S.N S.lowerBw S.get b := by
    unfold dfwd
    refine foldl_congr_mem _ _ _ _ ?_
    intro c j hj
    have hjN : j < S.N := List.mem_range.mp hj
    have h2 : foldIdx (j + 1) (min (j + S.lowerBw) (S.N - 1))
        (fun i c2 => if S.get i j ≠ 0
          then Function.update c2 i (c2 i - S.get i j • c2 j) else c2) c
        = fun a => if j + 1 ≤ a
            ∧ a < j + 1 + (min (j + S.lowerBw) (S.N - 1) + 1 - (j + 1))
          then c a - S.get a j • c j else c a :=
      subLoop_apply (fun i => S.get i j) j _ (j + 1) c (Or.inl (by omega))
    rw [h2]
    funext a
    by_cases hc : j < a ∧ a ≤ min (j + S.lowerBw) (S.N - 1)
    · rw [if_pos (show j + 1 ≤ a
        ∧ a < j + 1 + (min (j + S.lowerBw) (S.N - 1) + 1 - (j + 1)) by omega),
        if_pos hc]
    · rw [if_neg (show ¬(j + 1 ≤ a
        ∧ a < j + 1 + (min (j + S.lowerBw) (S.N - 1) + 1 - (j + 1))) by omega),
        if_neg hc]
  have hback : ∀ y : ℕ → V, ((List.range S.N).reverse).foldl
      (fun c j =>
        (List.range' (j - S.upperBw) (j - (j - S.upperBw))).foldl
          (fun c2 i => if S.get i j ≠ 0
            then Function.update c2 i (c2 i - S.get i j • c2 j) else c2)
          (Function.update c j ((S.get j j)⁻¹ • c j))) y
      = dback S.N S.upperBw S.get y := by
    intro y
    unfold dback
    refine foldl_congr_mem _ _ _ _ ?_
    intro c j hj
    have h2 : (List.range' (j - S.upperBw) (j - (j - S.upperBw))).foldl
        (fun c2 i => if S.get i j ≠ 0
          then Function.update c2 i (c2 i - S.get i j • c2 j) else c2)
        (Function.update c j ((S.get j j)⁻¹ • c j))
        = fun a => if j - S.upperBw ≤ a
            ∧ a < j - S.upperBw + (j - (j - S.upperBw))
          then Function.update c j ((S.get j j)⁻¹ • c j) a
            - S.get a j • Function.update c j ((S.get j j)⁻¹ • c j) j
          else Function.update c j ((S.get j j)⁻¹ • c j) a :=
      subLoop_apply (fun i => S.get i j) j _ (j - S.upperBw)
        (Function.update c j ((S.get j j)⁻¹ • c j)) (Or.inr (by omega))
    rw [h2]
    funext a
    have hupj : Function.update c j ((S.get j j)⁻¹ • c j) j
        = (S.get j j)⁻¹ • c j := by
      rw [Function.update_apply, if_pos rfl]
    by_cases h1 : a = j
    · subst h1
      rw [if_neg (show ¬(a - S.upperBw ≤ a
          ∧ a < a - S.upperBw + (a - (a - S.upperBw))) by omega),
        hupj, if_pos rfl]
    · have hupa : Function.update c j ((S.get j j)⁻¹ • c j) a = c a := by
        rw [Function.update_apply, if_neg h1]
      by_cases h2c : j - S.upperBw ≤ a ∧ a < j
      · rw [if_pos (show j - S.upperBw ≤ a
          ∧ a < j - S.upperBw + (j - (j - S.upperBw)) by omega),
          hupa, hupj, if_neg h1, if_pos h2c]
      · rw [if_neg (show ¬(j - S.upperBw ≤ a
          ∧ a < j - S.upperBw + (j - (j - S.upperBw))) by omega),
          hupa, if_neg h1, if_neg h2c]
  rw [hsolve, hfwd, hback]

theorem solveAdj_eq_dense {V : Type} [AddCommGroup V] [Module ℚ V]
    (S : BandedSystem) (b : ℕ → V) :
    S.solveAdj b
      = dbackAdj S.N S.lowerBw S.get (dfwdAdj S.N S.upperBw S.get b) := by
  have hsolve : S.solveAdj b
      = ((List.range S.N).reverse).foldl
          (fun c j =>
            (List.range' (j - S.lowerBw) (j - (j - S.lowerBw))).foldl
              (fun c2 i => if S.get j i ≠ 0
                then Function.update c2 i (c2 i - S.get j i • c2 j) else c2)
              c)
          ((List.range S.N).foldl
            (fun c j => foldIdx (j + 1) (min (j + S.upperBw) (S.N - 1))
              (fun i c2 => if S.get j i ≠ 0
                then Function.update c2 i (c2 i - S.get j i • c2 j) else c2)
              (Function.update c j ((S.get j j)⁻¹ • c j)))
            b) := rfl
  have hfwd : (List.range S.N).foldl
      (fun c j => foldIdx (j + 1) (min (j + S.upperBw) (S.N - 1))
        (fun i c2 => if S.get j i ≠ 0
          then Function.update c2 i (c2 i - S.get j i • c2 j) else c2)
        (Function.update c j ((S.get j j)⁻¹ • c j))) b
      = dfwdAdj S.N S.upperBw S.get b := by
    unfold dfwdAdj
    refine foldl_congr_mem _ _ _ _ ?_
    intro c j hj
    have hjN : j < S.N := List.mem_range.mp hj
    have h2 : foldIdx (j + 1) (min (j + S.upperBw) (S.N - 1))
        (fun i c2 => if S.get j i ≠ 0
          then Function.update c2 i (c2 i - S.get j i • c2 j) else c2)
        (Function.update c j ((S.get j j)⁻¹ • c j))
        = fun a => if j + 1 ≤ a
            ∧ a < j + 1 + (min (j + S.upperBw) (S.N - 1) + 1 - (j + 1))
          then Function.update c j ((S.get j j)⁻¹ • c j) a
            - S.get j a • Function.update c j ((S.get j j)⁻¹ • c j) j
          else Function.update c j ((S.get j j)⁻¹ • c j) a :=
      subLoop_apply (fun i => S.get j i) j _ (j + 1)
        (Function.update c j ((S.get j j)⁻¹ • c j)) (Or.inl (by omega))
    rw [h2]
    funext a
    have hupj : Function.update c j ((S.get j j)⁻¹ • c j) j
        = (S.get j j)⁻¹ • c j := by
      rw [Function.update_apply, if_pos rfl]
    by_cases h1 : a = j
    · subst h1
      rw [if_neg (show ¬(a + 1 ≤ a
          ∧ a < a + 1 + (min (a + S.upperBw) (S.N - 1) + 1 - (a + 1)))
        by omega), hupj, if_pos rfl]
    · have hupa : Function.update c j ((S.get j j)⁻¹ • c j) a = c a := by
        rw [Function.update_apply, if_neg h1]
      by_cases h2c : j < a ∧ a ≤ min (j + S.upperBw) (S.N - 1)
      · rw [if_pos (show j + 1 ≤ a
          ∧ a < j + 1 + (min (j + S.upperBw) (S.N - 1) + 1 - (j + 1))
          by omega), hupa, hupj, if_neg h1, if_pos h2c]
      · rw [if_neg (show ¬(j + 1 ≤ a
          ∧ a < j + 1 + (min (j + S.upperBw) (S.N - 1) + 1 - (j + 1)))
          by omega), hupa, if_neg h1, if_neg h2c]
  have hback : ∀ y : ℕ → V, ((List.range S.N).reverse).foldl
      (fun c j =>
        (List.range' (j - S.lowerBw) (j - (j - S.lowerBw))).foldl
          (fun c2 i => if S.get j i ≠ 0
            then Function.update c2 i (c2 i - S.get j i • c2 j) else c2)
          c) y
      = dbackAdj S.N S.lowerBw S.get y := by
    intro y
    unfold dbackAdj
    refine foldl_congr_mem _ _ _ _ ?_
    intro c j hj
    have h2 : (List.range' (j - S.lowerBw) (j - (j - S.lowerBw))).foldl
        (fun c2 i => if S.get j i ≠ 0
          then Function.update c2 i (c2 i - S.get j i • c2 j) else c2) c
        = fun a => if j - S.lowerBw ≤ a
            ∧ a < j - S.lowerBw + (j - (j - S.lowerBw))
          then c a - S.get j a • c j else c a :=
      subLoop_apply (fun i => S.get j i) j _ (j - S.lowerBw) c
        (Or.inr (by omega))
    rw [h2]
    funext a
    by_cases hc : j - S.lowerBw ≤ a ∧ a < j
    · rw [if_pos (show j - S.lowerBw ≤ a
        ∧ a < j - S.lowerBw + (j - (j - S.lowerBw)) by omega), if_pos hc]
    · rw [if_neg (show ¬(j - S.lowerBw ≤ a
        ∧ a < j - S.lowerBw + (j - (j - S.lowerBw))) by omega), if_neg hc]
  rw [hsolve, hfwd, hback]

theorem dfwd_eq_part {V : Type} [AddCommGroup V] [Module ℚ V]
    (n p : ℕ) (G : ℕ → ℕ → ℚ) (B : ℕ → V) :
    dfwd n p G B = dfwdPart n p G B n := rfl

theorem dback_eq_part {V : Type} [AddCommGroup V] [Module ℚ V]
    (n q : ℕ) (G : ℕ → ℕ → ℚ) (B : ℕ → V) :
    dback n q G B = dbackPart n q G B 0 := by
  unfold dback dbackPart
  rw [Nat.sub_zero, List.range_eq_range']

theorem dfwdAdj_eq_part {V : Type} [AddCommGroup V] [Module ℚ V]
    (n q : ℕ) (G : ℕ → ℕ → ℚ) (B : ℕ → V) :
    dfwdAdj n q G B = dfwdAdjPart n q G B n := rfl

theorem dbackAdj_eq_part {V : Type} [AddCommGroup V] [Module ℚ V]
    (n p : ℕ) (G : ℕ → ℕ → ℚ) (B : ℕ → V) :
    dbackAdj n p G B = dbackAdjPart n p G B 0 := by
  unfold dbackAdj dbackAdjPart
  rw [Nat.sub_zero, List.range_eq_range']

theorem dfwdPart_succ {V : Type} [AddCommGroup V] [Module ℚ V]
    (n p : ℕ) (G : ℕ → ℕ → ℚ) (B : ℕ → V) (m : ℕ) :
    dfwdPart n p G B (m + 1)
      = fun a => if m < a ∧ a ≤ min (m + p) (n - 1)
          then dfwdPart n p G B m a - G a m • dfwdPart n p G B m m
          else dfwdPart n p G B m a := by
  unfold dfwdPart
  rw [List.range_succ, List.foldl_append, List.foldl_cons, List.foldl_nil]

theorem dbackPart_top {V : Type} [AddCommGroup V] [Module ℚ V]
    (n q : ℕ) (G : ℕ → ℕ → ℚ) (B : ℕ → V) :
    dbackPart n q G B n = B := by
  unfold dbackPart
  rw [Nat.sub_self]
  rfl

theorem dbackPart_step {V : Type} [AddCommGroup V] [Module ℚ V]
    (n q : ℕ) (G : ℕ → ℕ → ℚ) (B : ℕ → V) (j : ℕ) (h : j < n) :
    dbackPart n q G B j
      = fun a =>
          if a = j then (G j j)⁻¹ • dbackPart n q G B (j + 1) j
          else if j - q ≤ a ∧ a < j
            then dbackPart n q G B (j + 1) a
              - G a j • ((G j j)⁻¹ • dbackPart n q G B (j + 1) j)
          else dbackPart n q G B (j + 1) a := by
  unfold dbackPart
  rw [show n - j = (n - (j + 1)) + 1 by omega, List.range'_succ,
    List.reverse_cons, List.foldl_append, List.foldl_cons, List.foldl_nil]

theorem dfwdAdjPart_succ {V : Type} [AddCommGroup V] [Module ℚ V]
    (n q : ℕ) (G : ℕ → ℕ → ℚ) (B : ℕ → V) (m : ℕ) :
    dfwdAdjPart n q G B (m + 1)
      = fun a =>
          if a = m then (G m m)⁻¹ • dfwdAdjPart n q G B m m
          else if m < a ∧ a ≤ min (m + q) (n - 1)
            then dfwdAdjPart n q G B m a
              - G m a • ((G m m)⁻¹ • dfwdAdjPart n q G B m m)
          else dfwdAdjPart n q G B m a := by
  unfold dfwdAdjPart
  rw [List.range_succ, List.foldl_append, List.foldl_cons, List.foldl_nil]

theorem dbackAdjPart_top {V : Type} [AddCommGroup V] [Module ℚ V]
    (n p : ℕ) (G : ℕ → ℕ → ℚ) (B : ℕ → V) :
    dbackAdjPart n p G B n = B := by
  unfold dbackAdjPart
  rw [Nat.sub_self]
  rfl

theorem dbackAdjPart_step {V : Type} [AddCommGroup V] [Module ℚ V]
    (n p : ℕ) (G : ℕ → ℕ → ℚ) (B : ℕ → V) (j : ℕ) (h : j < n) :
    dbackAdjPart n p G B j
      = fun a =>
          if j - p ≤ a ∧ a < j
            then dbackAdjPart n p G B (j + 1) a
              - G j a • dbackAdjPart n p G B (j + 1) j
          else dbackAdjPart n p G B (j + 1) a := by
  unfold dbackAdjPart
  rw [show n - j = (n - (j + 1)) + 1 by omega, List.range'_succ,
    List.reverse_cons, List.foldl_append, List.foldl_cons, List.foldl_nil]

/-- After `m` columns of forward substitution, rows `≥ n` are untouched and
row `a` has been reduced by exactly the processed part of column `a`'s
band. -/
theorem dfwdPart_spec {V : Type} [AddCommGroup V] [Module ℚ V]
    (n p : ℕ) (G : ℕ → ℕ → ℚ) (B : ℕ → V) :
    ∀ m, m ≤ n →
      (∀ a, n ≤ a → dfwdPart n p G B m a = B a)
      ∧ (∀ a, a < n → dfwdPart n p G B m a
          = B a - ∑ t ∈ Finset.range (min a m),
              (if a ≤ t + p then G a t else 0) • dfwdPart n p G B m t) := by
  intro m
  induction m with
  | zero =>
      intro _
      refine ⟨fun a _ => rfl, fun a ha => ?_⟩
      rw [show min a 0 = 0 by omega, Finset.range_zero, Finset.sum_empty,
        sub_zero]
      rfl
  | succ m ih =>
      intro hm
      obtain ⟨ih1, ih2⟩ := ih (by omega)
      have hstab : ∀ t, t ≤ m → dfwdPart n p G B (m + 1) t
          = dfwdPart n p G B m t := by
        intro t ht
        rw [dfwdPart_succ]
        dsimp only
        rw [if_neg (show ¬(m < t ∧ t ≤ min (m + p) (n - 1)) by omega)]
      constructor
      · intro a ha
        rw [dfwdPart_succ]
        dsimp only
        rw [if_neg (show ¬(m < a ∧ a ≤ min (m + p) (n - 1)) by omega)]
        exact ih1 a ha
      · intro a ha
        by_cases hact : m < a ∧ a ≤ min (m + p) (n - 1)
        · have hmin1 : min a (m + 1) = m + 1 := by omega
          have hmin0 : min a m = m := by omega
          have hsum : ∑ t ∈ Finset.range m,
              (if a ≤ t + p then G a t else 0) • dfwdPart n p G B (m + 1) t
              = ∑ t ∈ Finset.range m,
                (if a ≤ t + p then G a t else 0) • dfwdPart n p G B m t :=
            Finset.sum_congr rfl (fun t ht => by
              have := Finset.mem_range.mp ht
              rw [hstab t (by omega)])
          rw [hmin1, Finset.sum_range_succ, hsum, hstab m le_rfl,
            if_pos (show a ≤ m + p by omega)]
          rw [dfwdPart_succ]
          dsimp only
          rw [if_pos hact]
          have iha := ih2 a ha
          rw [hmin0] at iha
          rw [iha, sub_add_eq_sub_sub]
        · have hsum : ∑ t ∈ Finset.range (min a m),
              (if a ≤ t + p then G a t else 0) • dfwdPart n p G B (m + 1) t
              = ∑ t ∈ Finset.range (min a m),
                (if a ≤ t + p then G a t else 0) • dfwdPart n p G B m t :=
            Finset.sum_congr rfl (fun t ht => by
              have := Finset.mem_range.mp ht
              rw [hstab t (by omega)])
          by_cases hle : a ≤ m
          · have hmin1 : min a (m + 1) = min a m := by omega
            rw [hmin1, hsum, ← ih2 a ha]
            rw [dfwdPart_succ]
            dsimp only
            rw [if_neg hact]
          · have hmin1 : min a (m + 1) = m + 1 := by omega
            have hmin0 : min a m = m := by omega
            have iha := ih2 a ha
            rw [hmin0] at iha
            rw [hmin0] at hsum
            rw [hmin1, Finset.sum_range_succ,
              if_neg (show ¬(a ≤ m + p) by omega), zero_smul, add_zero,
              hsum, ← iha]
            rw [dfwdPart_succ]
            dsimp only
            rw [if_neg hact]

/-- After the back-substitution pass has processed columns `n-1, …, j`, rows
`≥ n` are untouched, rows `≥ j` carry their final solved values, and rows
`< j` carry the partially reduced right-hand side. -/
theorem dbackPart_spec {V : Type} [AddCommGroup V] [Module ℚ V]
    (n q : ℕ) (G : ℕ → ℕ → ℚ) (B : ℕ → V) :
    ∀ d, d ≤ n →
      (∀ a, n ≤ a → dbackPart n q G B (n - d) a = B a)
      ∧ (∀ a, a < n - d → dbackPart n q G B (n - d) a
          = B a - ∑ t ∈ Finset.Ico (n - d) n,
              (if t ≤ a + q then G a t else 0) • dbackPart n q G B (n - d) t)
      ∧ (∀ i, n - d ≤ i → i < n → dbackPart n q G B (n - d) i
          = (G i i)⁻¹ • (B i - ∑ t ∈ Finset.Ico (i + 1) n,
              (if t ≤ i + q then G i t else 0)
                • dbackPart n q G B (n - d) t)) := by
  intro d
  induction d with
  | zero =>
      intro _
      rw [Nat.sub_zero]
      refine ⟨fun a _ => by rw [dbackPart_top], fun a ha => ?_,
        fun i h1 h2 => absurd h1 (by omega)⟩
      rw [Finset.Ico_self, Finset.sum_empty, sub_zero, dbackPart_top]
  | succ d ih =>
      intro hd
      obtain ⟨ih1, ih2, ih3⟩ := ih (by omega)
      set j := n - (d + 1) with hjdef
      have hj1 : j + 1 = n - d := by omega
      have hjn : j < n := by omega
      rw [← hj1] at ih1 ih2 ih3
      have hstep := dbackPart_step n q G B j hjn
      have hstab : ∀ t, j < t →
          dbackPart n q G B j t = dbackPart n q G B (j + 1) t := by
        intro t ht
        rw [hstep]
        dsimp only
        rw [if_neg (show ¬(t = j) by omega),
          if_neg (show ¬(j - q ≤ t ∧ t < j) by omega)]
      have hjj : dbackPart n q G B j j
          = (G j j)⁻¹ • dbackPart n q G B (j + 1) j := by
        rw [hstep]
        dsimp only
        rw [if_pos rfl]
      refine ⟨?_, ?_, ?_⟩
      · intro a ha
        rw [hstep]
        dsimp only
        rw [if_neg (show ¬(a = j) by omega),
          if_neg (show ¬(j - q ≤ a ∧ a < j) by omega)]
        exact ih1 a ha
      · intro a ha
        have hsum : ∑ t ∈ Finset.Ico (j + 1) n,
            (if t ≤ a + q then G a t else 0) • dbackPart n q G B j t
            = ∑ t ∈ Finset.Ico (j + 1) n,
              (if t ≤ a + q then G a t else 0) • dbackPart n q G B (j + 1) t :=
          Finset.sum_congr rfl (fun t ht => by
            have := Finset.mem_Ico.mp ht
            rw [hstab t (by omega)])
        have hsplit : ∑ t ∈ Finset.Ico j n,
            (if t ≤ a + q then G a t else 0) • dbackPart n q G B j t
            = (if j ≤ a + q then G a j else 0) • dbackPart n q G B j j
              + ∑ t ∈ Finset.Ico (j + 1) n,
                (if t ≤ a + q then G a t else 0) • dbackPart n q G B j t := by
          rw [← Nat.Ico_insert_succ_left hjn, Finset.sum_insert
            (fun hmem => by
              have := Finset.mem_Ico.mp hmem
              omega)]
        have hLa := congrFun hstep a
        rw [if_neg (show ¬(a = j) by omega)] at hLa
        rw [hsplit, hsum]
        by_cases hband : j - q ≤ a
        · rw [if_pos (show j - q ≤ a ∧ a < j from ⟨hband, by omega⟩)] at hLa
          rw [hLa, hjj, ih2 a (by omega),
            show (if j ≤ a + q then G a j else 0) = G a j from
              if_pos (by omega),
            sub_add_eq_sub_sub, sub_right_comm]
        · rw [if_neg (show ¬(j - q ≤ a ∧ a < j) by omega)] at hLa
          rw [hLa, ih2 a (by omega),
            show (if j ≤ a + q then G a j else 0) = 0 from if_neg (by omega),
            zero_smul, zero_add]
      · intro i hi1 hi2
        by_cases hij : i = j
        · subst hij
          have hsum : ∑ t ∈ Finset.Ico (j + 1) n,
              (if t ≤ j + q then G j t else 0) • dbackPart n q G B j t
              = ∑ t ∈ Finset.Ico (j + 1) n,
                (if t ≤ j + q then G j t else 0)
                  • dbackPart n q G B (j + 1) t :=
            Finset.sum_congr rfl (fun t ht => by
              have := Finset.mem_Ico.mp ht
              rw [hstab t (by omega)])
          rw [hjj, ih2 j (by omega), hsum]
        · have hsum : ∑ t ∈ Finset.Ico (i + 1) n,
              (if t ≤ i + q then G i t else 0) • dbackPart n q G B j t
              = ∑ t ∈ Finset.Ico (i + 1) n,
                (if t ≤ i + q then G i t else 0)
                  • dbackPart n q G B (j + 1) t :=
            Finset.sum_congr rfl (fun t ht => by
              have := Finset.mem_Ico.mp ht
              rw [hstab t (by omega)])
          rw [hstab i (by omega), ih3 i (by omega) hi2, hsum]

/-- After `m` columns of the adjoint forward pass, rows `≥ n` are untouched,
rows `< m` carry their final solved values, and rows `≥ m` carry the
partially reduced right-hand side. -/
theorem dfwdAdjPart_spec {V : Type} [AddCommGroup V] [Module ℚ V]
    (n q : ℕ) (G : ℕ → ℕ → ℚ) (B : ℕ → V) :
    ∀ m, m ≤ n →
      (∀ a, n ≤ a → dfwdAdjPart n q G B m a = B a)
      ∧ (∀ a, m ≤ a → a < n → dfwdAdjPart n q G B m a
          = B a - ∑ t ∈ Finset.range m,
              (if a ≤ t + q then G t a else 0) • dfwdAdjPart n q G B m t)
      ∧ (∀ i, i < m → dfwdAdjPart n q G B m i
          = (G i i)⁻¹ • (B i - ∑ t ∈ Finset.range i,
              (if i ≤ t + q then G t i else 0)
                • dfwdAdjPart n q G B m t)) := by
  intro m
  induction m with
  | zero =>
      intro _
      refine ⟨fun a _ => rfl, fun a _ _ => ?_, fun i hi => absurd hi (by omega)⟩
      rw [Finset.range_zero, Finset.sum_empty, sub_zero]
      rfl
  | succ m ih =>
      intro hm
      obtain ⟨ih1, ih2, ih3⟩ := ih (by omega)
      have hstep := dfwdAdjPart_succ n q G B m
      have hstab : ∀ t, t < m →
          dfwdAdjPart n q G B (m + 1) t = dfwdAdjPart n q G B m t := by
        intro t ht
        have h := congrFun hstep t
        rw [if_neg (show ¬(t = m) by omega),
          if_neg (show ¬(m < t ∧ t ≤ min (m + q) (n - 1)) by omega)] at h
        exact h
      have hmm : dfwdAdjPart n q G B (m + 1) m
          = (G m m)⁻¹ • dfwdAdjPart n q G B m m := by
        have h := congrFun hstep m
        rw [if_pos rfl] at h
        exact h
      refine ⟨?_, ?_, ?_⟩
      · intro a ha
        have h := congrFun hstep a
        rw [if_neg (show ¬(a = m) by omega),
          if_neg (show ¬(m < a ∧ a ≤ min (m + q) (n - 1)) by omega)] at h
        rw [h]
        exact ih1 a ha
      · intro a ha1 ha2
        have hsum : ∑ t ∈ Finset.range m,
            (if a ≤ t + q then G t a else 0) • dfwdAdjPart n q G B (m + 1) t
            = ∑ t ∈ Finset.range m,
              (if a ≤ t + q then G t a else 0) • dfwdAdjPart n q G B m t :=
          Finset.sum_congr rfl (fun t ht => by
            have := Finset.mem_range.mp ht
            rw [hstab t (by omega)])
        have hLa := congrFun hstep a
        rw [if_neg (show ¬(a = m) by omega)] at hLa
        rw [Finset.sum_range_succ, hsum, hmm]
        by_cases hact : a ≤ m + q
        · rw [if_pos (show m < a ∧ a ≤ min (m + q) (n - 1) by omega)] at hLa
          rw [hLa, ih2 a (by omega) ha2,
            show (if a ≤ m + q then G m a else 0) = G m a from
              if_pos hact,
            sub_add_eq_sub_sub]
        · rw [if_neg (show ¬(m < a ∧ a ≤ min (m + q) (n - 1)) by omega)]
            at hLa
          rw [hLa, ih2 a (by omega) ha2,
            show (if a ≤ m + q then G m a else 0) = 0 from
              if_neg (by omega),
            zero_smul, add_zero]
      · intro i hi
        by_cases him : i = m
        · subst him
          have hsum : ∑ t ∈ Finset.range i,
              (if i ≤ t + q then G t i else 0) • dfwdAdjPart n q G B (i + 1) t
              = ∑ t ∈ Finset.range i,
                (if i ≤ t + q then G t i else 0) • dfwdAdjPart n q G B i t :=
            Finset.sum_congr rfl (fun t ht => by
              have := Finset.mem_range.mp ht
              rw [hstab t (by omega)])
          rw [hmm, ih2 i le_rfl (by omega), hsum]
        · have hsum : ∑ t ∈ Finset.range i,
              (if i ≤ t + q then G t i else 0) • dfwdAdjPart n q G B (m + 1) t
              = ∑ t ∈ Finset.range i,
                (if i ≤ t + q then G t i else 0) • dfwdAdjPart n q G B m t :=
            Finset.sum_congr rfl (fun t ht => by
              have := Finset.mem_range.mp ht
              rw [hstab t (by omega)])
          rw [hstab i (by omega), ih3 i (by omega), hsum]

/-- After the adjoint backward pass has processed columns `n-1, …, j`, rows
`≥ n` are untouched, rows `≥ j` are final, and rows `< j` are partially
reduced. -/
theorem dbackAdjPart_spec {V : Type} [AddCommGroup V] [Module ℚ V]
    (n p : ℕ) (G : ℕ → ℕ → ℚ) (B : ℕ → V) :
    ∀ d, d ≤ n →
      (∀ a, n ≤ a → dbackAdjPart n p G B (n - d) a = B a)
      ∧ (∀ a, n - d ≤ a → a < n → dbackAdjPart n p G B (n - d) a
          = B a - ∑ t ∈ Finset.Ico (a + 1) n,
              (if t ≤ a + p then G t a else 0) • dbackAdjPart n p G B (n - d) t)
      ∧ (∀ a, a < n - d → dbackAdjPart n p G B (n - d) a
          = B a - ∑ t ∈ Finset.Ico (n - d) n,
              (if t ≤ a + p then G t a else 0)
                • dbackAdjPart n p G B (n - d) t) := by
  intro d
  induction d with
  | zero =>
      intro _
      rw [Nat.sub_zero]
      refine ⟨fun a _ => by rw [dbackAdjPart_top],
        fun a h1 h2 => absurd h1 (by omega), fun a ha => ?_⟩
      rw [Finset.Ico_self, Finset.sum_empty, sub_zero, dbackAdjPart_top]
  | succ d ih =>
      intro hd
      obtain ⟨ih1, ih2, ih3⟩ := ih (by omega)
      set j := n - (d + 1) with hjdef
      have hj1 : j + 1 = n - d := by omega
      have hjn : j < n := by omega
      rw [← hj1] at ih1 ih2 ih3
      have hstep := dbackAdjPart_step n p G B j hjn
      have hstab : ∀ t, j ≤ t →
          dbackAdjPart n p G B j t = dbackAdjPart n p G B (j + 1) t := by
        intro t ht
        have h := congrFun hstep t
        rw [if_neg (show ¬(j - p ≤ t ∧ t < j) by omega)] at h
        exact h
      refine ⟨?_, ?_, ?_⟩
      · intro a ha
        rw [hstab a (by omega)]
        exact ih1 a ha
      · intro a ha1 ha2
        have hsum : ∑ t ∈ Finset.Ico (a + 1) n,
            (if t ≤ a + p then G t a else 0) • dbackAdjPart n p G B j t
            = ∑ t ∈ Finset.Ico (a + 1) n,
              (if t ≤ a + p then G t a else 0)
                • dbackAdjPart n p G B (j + 1) t :=
          Finset.sum_congr rfl (fun t ht => by
            have := Finset.mem_Ico.mp ht
            rw [hstab t (by omega)])
        by_cases haj : a = j
        · subst haj
          rw [hstab j le_rfl, ih3 j (by omega), hsum]
        · rw [hstab a (by omega), ih2 a (by omega) ha2, hsum]
      · intro a ha
        have hsum : ∑ t ∈ Finset.Ico (j + 1) n,
            (if t ≤ a + p then G t a else 0) • dbackAdjPart n p G B j t
            = ∑ t ∈ Finset.Ico (j + 1) n,
              (if t ≤ a + p then G t a else 0)
                • dbackAdjPart n p G B (j + 1) t :=
          Finset.sum_congr rfl (fun t ht => by
            have := Finset.mem_Ico.mp ht
            rw [hstab t (by omega)])
        have hsplit : ∑ t ∈ Finset.Ico j n,
            (if t ≤ a + p then G t a else 0) • dbackAdjPart n p G B j t
            = (if j ≤ a + p then G j a else 0) • dbackAdjPart n p G B j j
              + ∑ t ∈ Finset.Ico (j + 1) n,
                (if t ≤ a + p then G t a else 0)
                  • dbackAdjPart n p G B j t := by
          rw [← Nat.Ico_insert_succ_left hjn, Finset.sum_insert
            (fun hmem => by
              have := Finset.mem_Ico.mp hmem
              omega)]
        have hLa := congrFun hstep a
        rw [hsplit, hsum]
        by_cases hband : j - p ≤ a
        · rw [if_pos (show j - p ≤ a ∧ a < j from ⟨hband, by omega⟩)] at hLa
          rw [hLa, ← hstab j le_rfl, ih3 a (by omega),
            show (if j ≤ a + p then G j a else 0) = G j a from
              if_pos (by omega),
            sub_add_eq_sub_sub, sub_right_comm]
        · rw [if_neg (show ¬(j - p ≤ a ∧ a < j) by omega)] at hLa
          rw [hLa, ih3 a (by omega),
            show (if j ≤ a + p then G j a else 0) = 0 from if_neg (by omega),
            zero_smul, zero_add]

theorem mulVecN_matMulN {V : Type} [AddCommGroup V] [Module ℚ V]
    (n : ℕ) (A B2 : ℕ → ℕ → ℚ) (x : ℕ → V) (i : ℕ) :
    mulVecN n (matMulN n A B2) x i = mulVecN n A (mulVecN n B2 x) i := by
  unfold mulVecN matMulN
  calc ∑ j ∈ Finset.range n, (∑ t ∈ Finset.range n, A i t * B2 t j) • x j
      = ∑ j ∈ Finset.range n, ∑ t ∈ Finset.range n, A i t • B2 t j • x j :=
        Finset.sum_congr rfl (fun j _ => by
          rw [Finset.sum_smul]
          exact Finset.sum_congr rfl (fun t _ => mul_smul _ _ _))
    _ = ∑ t ∈ Finset.range n, ∑ j ∈ Finset.range n, A i t • B2 t j • x j :=
        Finset.sum_comm
    _ = ∑ t ∈ Finset.range n, A i t • ∑ j ∈ Finset.range n, B2 t j • x j :=
        Finset.sum_congr rfl (fun t _ => (Finset.smul_sum).symm)

theorem lower_tri_inj {V : Type} [AddCommGroup V] [Module ℚ V]
    (n p q : ℕ) (M : ℕ → ℕ → ℚ) (w : ℕ → V)
    (h : ∀ i, i < n → mulVecN n (lowerFac n p q M) w i = 0) :
    ∀ i, i < n → w i = 0 := by
  intro i
  induction i using Nat.strong_induction_on with
  | _ i ih =>
      intro hi
      have hmv := h i hi
      unfold mulVecN at hmv
      rw [Finset.range_eq_Ico, ← Finset.sum_Ico_consecutive _
          (show 0 ≤ i + 1 by omega) (show i + 1 ≤ n by omega),
        Finset.sum_Ico_succ_top (show 0 ≤ i by omega)] at hmv
      have htail : ∑ t ∈ Finset.Ico (i + 1) n,
          lowerFac n p q M i t • w t = 0 :=
        Finset.sum_eq_zero (fun t ht => by
          have := Finset.mem_Ico.mp ht
          rw [lowerFac_upper_zero M (show i < t by omega), zero_smul])
      have hhead : ∑ t ∈ Finset.Ico 0 i, lowerFac n p q M i t • w t = 0 :=
        Finset.sum_eq_zero (fun t ht => by
          have := Finset.mem_Ico.mp ht
          rw [ih t (by omega) (by omega), smul_zero])
      rw [htail, hhead, lowerFac_diag, one_smul, zero_add, add_zero] at hmv
      exact hmv

theorem upper_tri_inj {V : Type} [AddCommGroup V] [Module ℚ V]
    {n p q : ℕ} {M : ℕ → ℕ → ℚ} (hB : BandedMat n p q M)
    (hpiv : pivotsNZ n p q M) (z : ℕ → V)
    (h : ∀ i, i < n → mulVecN n (upperFac n p q M) z i = 0) :
    ∀ i, i < n → z i = 0 := by
  suffices hd : ∀ d i, i < n → n - i ≤ d → z i = 0 by
    intro i hi
    exact hd n i hi (by omega)
  intro d
  induction d with
  | zero => intro i hi hle; omega
  | succ d ih =>
      intro i hi hle
      have hmv := h i hi
      unfold mulVecN at hmv
      rw [Finset.range_eq_Ico, ← Finset.sum_Ico_consecutive _
          (show 0 ≤ i + 1 by omega) (show i + 1 ≤ n by omega),
        Finset.sum_Ico_succ_top (show 0 ≤ i by omega)] at hmv
      have hlow : ∑ t ∈ Finset.Ico 0 i, upperFac n p q M i t • z t = 0 :=
        Finset.sum_eq_zero (fun t ht => by
          have := Finset.mem_Ico.mp ht
          rw [upperFac_lower_zero hB (show t < i by omega), zero_smul])
      have htail : ∑ t ∈ Finset.Ico (i + 1) n,
          upperFac n p q M i t • z t = 0 :=
        Finset.sum_eq_zero (fun t ht => by
          have := Finset.mem_Ico.mp ht
          rw [ih t (by omega) (by omega), smul_zero])
      rw [hlow, htail, zero_add, add_zero] at hmv
      have hne : upperFac n p q M i i ≠ 0 := by
        rw [upperFac_diag M hi]
        exact hpiv i hi
      have h2 := congrArg (fun v => (upperFac n p q M i i)⁻¹ • v) hmv
      dsimp only at h2
      rw [smul_smul, inv_mul_cancel₀ hne, one_smul, smul_zero] at h2
      exact h2

/-- A matrix with an (implicit) nonsingular banded LU factorization acts
injectively on the solution rows `< n`. -/
theorem mulVecN_inj {V : Type} [AddCommGroup V] [Module ℚ V]
    {n p q : ℕ} {M : ℕ → ℕ → ℚ} (hB : BandedMat n p q M)
    (hpiv : pivotsNZ n p q M) (x1 x2 : ℕ → V)
    (h : ∀ i, i < n → mulVecN n M x1 i = mulVecN n M x2 i) :
    ∀ t, t < n → x1 t = x2 t := by
  have hzmv : ∀ i, i < n → mulVecN n M (fun t => x1 t - x2 t) i = 0 := by
    intro i hi
    unfold mulVecN
    calc ∑ j ∈ Finset.range n, M i j • (x1 j - x2 j)
        = ∑ j ∈ Finset.range n, (M i j • x1 j - M i j • x2 j) :=
          Finset.sum_congr rfl (fun j _ => smul_sub _ _ _)
      _ = (∑ j ∈ Finset.range n, M i j • x1 j)
          - ∑ j ∈ Finset.range n, M i j • x2 j := Finset.sum_sub_distrib
      _ = 0 := by
          have h2 := h i hi
          unfold mulVecN at h2
          rw [h2, sub_self]
  have hLUz : ∀ i, i < n → mulVecN n (lowerFac n p q M)
      (mulVecN n (upperFac n p q M) (fun t => x1 t - x2 t)) i = 0 := by
    intro i hi
    rw [← mulVecN_matMulN]
    have hcongr : mulVecN n (matMulN n (lowerFac n p q M) (upperFac n p q M))
        (fun t => x1 t - x2 t) i
        = mulVecN n M (fun t => x1 t - x2 t) i := by
      unfold mulVecN
      exact Finset.sum_congr rfl (fun j _ => by rw [lu_full hB hpiv i j])
    rw [hcongr]
    exact hzmv i hi
  have hUz := lower_tri_inj n p q M _ hLUz
  have hz0 := upper_tri_inj hB hpiv (fun t => x1 t - x2 t) hUz
  intro t ht
  exact sub_eq_zero.mp (hz0 t ht)

theorem mulVecN_congr {V : Type} [AddCommGroup V] [Module ℚ V]
    (n : ℕ) (A : ℕ → ℕ → ℚ) (f g : ℕ → V)
    (h : ∀ t, t < n → f t = g t) (i : ℕ) :
    mulVecN n A f i = mulVecN n A g i := by
  unfold mulVecN
  exact Finset.sum_congr rfl (fun t ht => by
    rw [h t (Finset.mem_range.mp ht)])

/-- The in-band reads of the factorized storage are exactly the dense `L`
and `U` factors of the represented matrix. -/
theorem factorizeLU_get_bridges (S : BandedSystem) :
    (∀ a t, a < S.N → t < a →
      (if a ≤ t + S.lowerBw then (S.factorizeLU).get a t else 0)
        = lowerFac S.N S.lowerBw S.upperBw S.entry a t)
    ∧ (∀ a t, a < S.N → a < t → t < S.N →
      (if t ≤ a + S.upperBw then (S.factorizeLU).get a t else 0)
        = upperFac S.N S.lowerBw S.upperBw S.entry a t)
    ∧ (∀ i, i < S.N → (S.factorizeLU).get i i
        = upperFac S.N S.lowerBw S.upperBw S.entry i i) := by
  have hB := entry_banded S
  have hFf := factorizeLU_fields S
  have hFe := entry_factorizeLU S
  refine ⟨?_, ?_, ?_⟩
  · intro a t ha hta
    by_cases hband : a ≤ t + S.lowerBw
    · have h1 : a < (S.factorizeLU).N := by rw [hFf.1]; exact ha
      have h2 : t < (S.factorizeLU).N := by rw [hFf.1]; omega
      have h3 : inBand (S.factorizeLU).lowerBw (S.factorizeLU).upperBw a t := by
        rw [hFf.2.1, hFf.2.2]
        exact ⟨by omega, by omega⟩
      have he := entry_eq_get (S.factorizeLU) h1 h2 h3
      rw [if_pos hband, ← he, hFe, lowerFac_eq_of_lt hB hta]
    · rw [if_neg hband,
        lowerFac_band_zero hB (show t + S.lowerBw < a by omega)]
  · intro a t ha hat htn
    by_cases hband : t ≤ a + S.upperBw
    · have h1 : a < (S.factorizeLU).N := by rw [hFf.1]; exact ha
      have h2 : t < (S.factorizeLU).N := by rw [hFf.1]; exact htn
      have h3 : inBand (S.factorizeLU).lowerBw (S.factorizeLU).upperBw a t := by
        rw [hFf.2.1, hFf.2.2]
        exact ⟨by omega, by omega⟩
      have he := entry_eq_get (S.factorizeLU) h1 h2 h3
      rw [if_pos hband, ← he, hFe, upperFac_eq_of_le S.entry (by omega)]
    · rw [if_neg hband,
        upperFac_band_zero hB (show a + S.upperBw < t by omega)]
  · intro i hi
    have h1 : i < (S.factorizeLU).N := by rw [hFf.1]; exact hi
    have h3 : inBand (S.factorizeLU).lowerBw (S.factorizeLU).upperBw i i := by
      rw [hFf.2.1, hFf.2.2]
      exact ⟨by omega, by omega⟩
    have he := entry_eq_get (S.factorizeLU) h1 h1 h3
    rw [← he, hFe, upperFac_eq_of_le S.entry le_rfl]

/-- Dense-level correctness of the two-phase substitution against the `L·U`
factorization, given the storage/factor bridges. -/
theorem dense_solve_core {V : Type} [AddCommGroup V] [Module ℚ V]
    (n p q : ℕ) (M G : ℕ → ℕ → ℚ) (B : ℕ → V)
    (hB : BandedMat n p q M) (hpiv : pivotsNZ n p q M)
    (hgL : ∀ a t, a < n → t < a →
      (if a ≤ t + p then G a t else 0) = lowerFac n p q M a t)
    (hgU : ∀ a t, a < n → a < t → t < n →
      (if t ≤ a + q then G a t else 0) = upperFac n p q M a t)
    (hgD : ∀ i, i < n → G i i = upperFac n p q M i i) :
    (∀ i, i < n → mulVecN n M (dback n q G (dfwd n p G B)) i = B i)
    ∧ (∀ i, n ≤ i → dback n q G (dfwd n p G B) i = B i) := by
  obtain ⟨hy1, hy2raw⟩ := dfwdPart_spec n p G B n le_rfl
  set y := dfwdPart n p G B n with hydef
  obtain ⟨hx1, hx2raw, hx3raw⟩ := dbackPart_spec n q G y n le_rfl
  rw [Nat.sub_self] at hx1 hx2raw hx3raw
  set x := dbackPart n q G y 0 with hxdef
  have hpipe : dback n q G (dfwd n p G B) = x := by
    rw [dfwd_eq_part, dback_eq_part, ← hydef, ← hxdef]
  rw [hpipe]
  have hy2 : ∀ a, a < n → y a
      = B a - ∑ t ∈ Finset.range a, lowerFac n p q M a t • y t := by
    intro a ha
    have h := hy2raw a ha
    rw [min_eq_left (le_of_lt ha)] at h
    have hs : ∑ t ∈ Finset.range a, (if a ≤ t + p then G a t else 0) • y t
        = ∑ t ∈ Finset.range a, lowerFac n p q M a t • y t :=
      Finset.sum_congr rfl (fun t ht => by
        have := Finset.mem_range.mp ht
        rw [hgL a t ha (by omega)])
    rw [h, hs]
  have hx3 : ∀ i, i < n → upperFac n p q M i i • x i
      = y i - ∑ t ∈ Finset.Ico (i + 1) n, upperFac n p q M i t • x t := by
    intro i hi
    have h := hx3raw i (by omega) hi
    have hs : ∑ t ∈ Finset.Ico (i + 1) n,
        (if t ≤ i + q then G i t else 0) • x t
        = ∑ t ∈ Finset.Ico (i + 1) n, upperFac n p q M i t • x t :=
      Finset.sum_congr rfl (fun t ht => by
        have := Finset.mem_Ico.mp ht
        rw [hgU i t hi (by omega) (by omega)])
    rw [hs, hgD i hi] at h
    rw [h, smul_smul, mul_inv_cancel₀ (by
      rw [upperFac_diag M hi]
      exact hpiv i hi), one_smul]
  have hLy : ∀ i, i < n → mulVecN n (lowerFac n p q M) y i = B i := by
    intro i hi
    unfold mulVecN
    rw [Finset.range_eq_Ico, ← Finset.sum_Ico_consecutive _
        (show 0 ≤ i + 1 by omega) (show i + 1 ≤ n by omega),
      Finset.sum_Ico_succ_top (show 0 ≤ i by omega)]
    have htail : ∑ t ∈ Finset.Ico (i + 1) n,
        lowerFac n p q M i t • y t = 0 :=
      Finset.sum_eq_zero (fun t ht => by
        have := Finset.mem_Ico.mp ht
        rw [lowerFac_upper_zero M (show i < t by omega), zero_smul])
    rw [htail, add_zero, lowerFac_diag, one_smul, ← Finset.range_eq_Ico,
      hy2 i hi]
    abel
  have hUx : ∀ i, i < n → mulVecN n (upperFac n p q M) x i = y i := by
    intro i hi
    unfold mulVecN
    rw [Finset.range_eq_Ico, ← Finset.sum_Ico_consecutive _
        (show 0 ≤ i by omega) (show i ≤ n by omega),
      ← Nat.Ico_insert_succ_left hi, Finset.sum_insert
        (fun hmem => by
          have := Finset.mem_Ico.mp hmem
          omega)]
    have hlow : ∑ t ∈ Finset.Ico 0 i, upperFac n p q M i t • x t = 0 :=
      Finset.sum_eq_zero (fun t ht => by
        have := Finset.mem_Ico.mp ht
        rw [upperFac_lower_zero hB (show t < i by omega), zero_smul])
    rw [hlow, zero_add, hx3 i hi]
    abel
  constructor
  · intro i hi
    have hcongr : mulVecN n M x i
        = mulVecN n (matMulN n (lowerFac n p q M) (upperFac n p q M)) x i := by
      unfold mulVecN
      exact Finset.sum_congr rfl (fun j _ => by rw [lu_full hB hpiv i j])
    rw [hcongr, mulVecN_matMulN,
      mulVecN_congr n (lowerFac n p q M) (mulVecN n (upperFac n p q M) x) y
        hUx i, hLy i hi]
  · intro i hi
    rw [hx1 i hi]
    exact hy1 i hi

/-- `factorizeLU` then `solve` solves the represented system on the first
`N` rows and leaves the remaining rows untouched, whenever all elimination
pivots are nonzero. -/
theorem solve_correct_core {V : Type} [AddCommGroup V] [Module ℚ V]
    (S : BandedSystem) (B : ℕ → V)
    (hpiv : pivotsNZ S.N S.lowerBw S.upperBw S.entry) :
    (∀ i, i < S.N → mulVecN S.N S.entry ((S.factorizeLU).solve B) i = B i)
    ∧ (∀ i, S.N ≤ i → (S.factorizeLU).solve B i = B i) := by
  have hFf := factorizeLU_fields S
  obtain ⟨hgL, hgU, hgD⟩ := factorizeLU_get_bridges S
  have hsd : (S.factorizeLU).solve B
      = dback S.N S.upperBw (S.factorizeLU).get
          (dfwd S.N S.lowerBw (S.factorizeLU).get B) := by
    rw [solve_eq_dense, hFf.1, hFf.2.1, hFf.2.2]
  rw [hsd]
  exact dense_solve_core S.N S.lowerBw S.upperBw S.entry (S.factorizeLU).get
    B (entry_banded S) hpiv hgL hgU hgD

/-- Dense-level correctness of the adjoint substitution: it solves the
transposed system `Mᵀ·X = B`. -/
theorem dense_solveAdj_core {V : Type} [AddCommGroup V] [Module ℚ V]
    (n p q : ℕ) (M G : ℕ → ℕ → ℚ) (B : ℕ → V)
    (hB : BandedMat n p q M) (hpiv : pivotsNZ n p q M)
    (hgL : ∀ a t, a < n → t < a →
      (if a ≤ t + p then G a t else 0) = lowerFac n p q M a t)
    (hgU : ∀ a t, a < n → a < t → t < n →
      (if t ≤ a + q then G a t else 0) = upperFac n p q M a t)
    (hgD : ∀ i, i < n → G i i = upperFac n p q M i i) :
    (∀ i, i < n →
      mulVecN n (fun a b => M b a) (dbackAdj n p G (dfwdAdj n q G B)) i = B i)
    ∧ (∀ i, n ≤ i → dbackAdj n p G (dfwdAdj n q G B) i = B i) := by
  obtain ⟨hw1, hw2raw, hw3raw⟩ := dfwdAdjPart_spec n q G B n le_rfl
  set w := dfwdAdjPart n q G B n with hwdef
  obtain ⟨hz1, hz2raw, hz3raw⟩ := dbackAdjPart_spec n p G w n le_rfl
  rw [Nat.sub_self] at hz1 hz2raw hz3raw
  set z := dbackAdjPart n p G w 0 with hzdef
  have hpipe : dbackAdj n p G (dfwdAdj n q G B) = z := by
    rw [dfwdAdj_eq_part, dbackAdj_eq_part, ← hwdef, ← hzdef]
  rw [hpipe]
  have hw3 : ∀ i, i < n → upperFac n p q M i i • w i
      = B i - ∑ t ∈ Finset.range i, upperFac n p q M t i • w t := by
    intro i hi
    have h := hw3raw i hi
    have hs : ∑ t ∈ Finset.range i, (if i ≤ t + q then G t i else 0) • w t
        = ∑ t ∈ Finset.range i, upperFac n p q M t i • w t :=
      Finset.sum_congr rfl (fun t ht => by
        have := Finset.mem_range.mp ht
        rw [hgU t i (by omega) (by omega) hi])
    rw [hs, hgD i hi] at h
    rw [h, smul_smul, mul_inv_cancel₀ (by
      rw [upperFac_diag M hi]
      exact hpiv i hi), one_smul]
  have hz2 : ∀ a, a < n → z a
      = w a - ∑ t ∈ Finset.Ico (a + 1) n, lowerFac n p q M t a • z t := by
    intro a ha
    have h := hz2raw a (by omega) ha
    have hs : ∑ t ∈ Finset.Ico (a + 1) n,
        (if t ≤ a + p then G t a else 0) • z t
        = ∑ t ∈ Finset.Ico (a + 1) n, lowerFac n p q M t a • z t :=
      Finset.sum_congr rfl (fun t ht => by
        have := Finset.mem_Ico.mp ht
        rw [hgL t a (by omega) (by omega)])
    rw [hs] at h
    exact h
  have hUw : ∀ i, i < n →
      mulVecN n (fun a b => upperFac n p q M b a) w i = B i := by
    intro i hi
    unfold mulVecN
    dsimp only
    rw [Finset.range_eq_Ico, ← Finset.sum_Ico_consecutive _
        (show 0 ≤ i + 1 by omega) (show i + 1 ≤ n by omega),
      Finset.sum_Ico_succ_top (show 0 ≤ i by omega)]
    have htail : ∑ t ∈ Finset.Ico (i + 1) n,
        upperFac n p q M t i • w t = 0 :=
      Finset.sum_eq_zero (fun t ht => by
        have := Finset.mem_Ico.mp ht
        rw [upperFac_lower_zero hB (show i < t by omega), zero_smul])
    rw [htail, add_zero, ← Finset.range_eq_Ico, hw3 i hi]
    abel
  have hLz : ∀ i, i < n →
      mulVecN n (fun a b => lowerFac n p q M b a) z i = w i := by
    intro i hi
    unfold mulVecN
    dsimp only
    rw [Finset.range_eq_Ico, ← Finset.sum_Ico_consecutive _
        (show 0 ≤ i by omega) (show i ≤ n by omega),
      ← Nat.Ico_insert_succ_left hi, Finset.sum_insert
        (fun hmem => by
          have := Finset.mem_Ico.mp hmem
          omega)]
    have hlow : ∑ t ∈ Finset.Ico 0 i, lowerFac n p q M t i • z t = 0 :=
      Finset.sum_eq_zero (fun t ht => by
        have := Finset.mem_Ico.mp ht
        rw [lowerFac_upper_zero M (show t < i by omega), zero_smul])
    rw [hlow, zero_add, lowerFac_diag, one_smul, hz2 i hi]
    abel
  constructor
  · intro i hi
    have hcongr : mulVecN n (fun a b => M b a) z i
        = mulVecN n (matMulN n (fun a b => upperFac n p q M b a)
            (fun a b => lowerFac n p q M b a)) z i := by
      unfold mulVecN matMulN
      dsimp only
      refine Finset.sum_congr rfl (fun j _ => ?_)
      have h := lu_full hB hpiv j i
      unfold matMulN at h
      rw [show M j i = ∑ t ∈ Finset.range n,
          upperFac n p q M t i * lowerFac n p q M j t from by
        rw [← h]
        exact Finset.sum_congr rfl (fun t _ => mul_comm _ _)]
    rw [hcongr, mulVecN_matMulN,
      mulVecN_congr n (fun a b => upperFac n p q M b a)
        (mulVecN n (fun a b => lowerFac n p q M b a) z) w hLz i,
      hUw i hi]
  · intro i hi
    rw [hz1 i hi]
    exact hw1 i hi

/-- `factorizeLU` then `solveAdj` solves the transposed system on the first
`N` rows and leaves the remaining rows untouched, whenever all elimination
pivots are nonzero. -/
theorem solveAdj_correct_core {V : Type} [AddCommGroup V] [Module ℚ V]
    (S : BandedSystem) (B : ℕ → V)
    (hpiv : pivotsNZ S.N S.lowerBw S.upperBw S.entry) :
    (∀ i, i < S.N → mulVecN S.N (fun a b => S.entry b a)
      ((S.factorizeLU).solveAdj B) i = B i)
    ∧ (∀ i, S.N ≤ i → (S.factorizeLU).solveAdj B i = B i) := by
  have hFf := factorizeLU_fields S
  obtain ⟨hgL, hgU, hgD⟩ := factorizeLU_get_bridges S
  have hsd : (S.factorizeLU).solveAdj B
      = dbackAdj S.N S.lowerBw (S.factorizeLU).get
          (dfwdAdj S.N S.upperBw (S.factorizeLU).get B) := by
    rw [solveAdj_eq_dense, hFf.1, hFf.2.1, hFf.2.2]
  rw [hsd]
  exact dense_solveAdj_core S.N S.lowerBw S.upperBw S.entry
    (S.factorizeLU).get B (entry_banded S) hpiv hgL hgU hgD

/-- C5: for a banded matrix that is *strictly* diagonally dominant by rows
(the claim's "diagonally dominant" must be read strictly: the weak reading
is refuted separately), `factorizeLU` followed by `solve` overwrites the
right-hand side, on the first `N` rows, with the unique solution `X` of
`A·X = B`, and leaves all rows beyond `N` untouched; this holds for every
row type, i.e. for right-hand-side matrices with any number of columns. -/
theorem solve_solves_system {V : Type} [AddCommGroup V] [Module ℚ V]
    (S : BandedSystem) (B : ℕ → V) (hdom : sddRow S.N S.entry) :
    (∀ i, i < S.N → mulVecN S.N S.entry ((S.factorizeLU).solve B) i = B i)
    ∧ (∀ i, S.N ≤ i → (S.factorizeLU).solve B i = B i)
    ∧ (∀ x : ℕ → V, (∀ i, i < S.N → mulVecN S.N S.entry x i = B i)
        → ∀ t, t < S.N → x t = (S.factorizeLU).solve B t) := by
  have hpiv := sddRow_pivotsNZ (entry_banded S) hdom
  obtain ⟨h1, h2⟩ := solve_correct_core S B hpiv
  refine ⟨h1, h2, ?_⟩
  intro x hx t ht
  exact mulVecN_inj (entry_banded S) hpiv x ((S.factorizeLU).solve B)
    (fun i hi => by rw [hx i hi, h1 i hi]) t ht

/-- C6: for a banded matrix that is *strictly* diagonally dominant by
columns, `factorizeLU` followed by `solveAdj` overwrites the right-hand
side, on the first `N` rows, with the solution `X` of `Aᵀ·X = B`, leaves
rows beyond `N` untouched, and agrees row-by-row with applying
`factorizeLU`-and-`solve` to any banded system holding the explicit
transpose of `A` (size preserved, bandwidths swapped). -/
theorem solveAdj_solves_transpose {V : Type} [AddCommGroup V] [Module ℚ V]
    (S : BandedSystem) (B : ℕ → V) (hdom : sddCol S.N S.entry) :
    (∀ i, i < S.N → mulVecN S.N (fun a b => S.entry b a)
      ((S.factorizeLU).solveAdj B) i = B i)
    ∧ (∀ i, S.N ≤ i → (S.factorizeLU).solveAdj B i = B i)
    ∧ (∀ T : BandedSystem, T.N = S.N → T.lowerBw = S.upperBw →
        T.upperBw = S.lowerBw → (∀ i j, T.entry i j = S.entry j i) →
        ∀ t, t < S.N → (S.factorizeLU).solveAdj B t
          = (T.factorizeLU).solve B t) := by
  have hpiv := sddCol_pivotsNZ (entry_banded S) hdom
  obtain ⟨h1, h2⟩ := solveAdj_correct_core S B hpiv
  refine ⟨h1, h2, ?_⟩
  intro T hTN hTp hTq hTe t ht
  have hBT := entry_banded T
  have hsT : sddRow T.N T.entry := by
    intro i hi1 hi2
    have hd := hdom i hi1 (by omega)
    have hsum : ∑ j ∈ Finset.Ico 0 T.N,
        (if j = i then 0 else |T.entry i j|)
        = ∑ j ∈ Finset.Ico 0 S.N, (if j = i then 0 else |S.entry j i|) := by
      rw [hTN]
      exact Finset.sum_congr rfl (fun j _ => by rw [hTe i j])
    rw [hsum, hTe i i]
    exact hd
  have hpivT := sddRow_pivotsNZ hBT hsT
  obtain ⟨hT1, hT2⟩ := solve_correct_core T B hpivT
  refine mulVecN_inj hBT hpivT ((S.factorizeLU).solveAdj B)
    ((T.factorizeLU).solve B) ?_ t (by rw [hTN]; exact ht)
  intro i hi
  rw [hT1 i hi]
  have hconv : mulVecN T.N T.entry ((S.factorizeLU).solveAdj B) i
      = mulVecN S.N (fun a b => S.entry b a)
        ((S.factorizeLU).solveAdj B) i := by
    unfold mulVecN
    rw [hTN]
    exact Finset.sum_congr rfl (fun j _ => by rw [hTe i j])
  rw [hconv, h1 i (by rw [← hTN]; exact hi)]

/-- C5, counterexample to the weak reading: the 1×1 zero system is (weakly)
diagonally dominant, yet `A·X = B` with `B = (1)` has no solution at all,
so no solver output can satisfy the claimed contract. -/
theorem weak_dominance_solve_impossible :
    (∀ i, i < ((⟨0, 0, 0, fun _ => 0⟩ : BandedSystem).create 1 0 0).N →
      (∑ j ∈ Finset.Ico 0
          ((⟨0, 0, 0, fun _ => 0⟩ : BandedSystem).create 1 0 0).N,
        if j = i then 0
        else |((⟨0, 0, 0, fun _ => 0⟩ : BandedSystem).create 1 0 0).entry i j|)
        ≤ |((⟨0, 0, 0, fun _ => 0⟩ : BandedSystem).create 1 0 0).entry i i|)
    ∧ ∀ x : ℕ → ℚ,
      mulVecN ((⟨0, 0, 0, fun _ => 0⟩ : BandedSystem).create 1 0 0).N
        ((⟨0, 0, 0, fun _ => 0⟩ : BandedSystem).create 1 0 0).entry x 0
        ≠ (1 : ℚ) := by
  constructor
  · intro i hi
    have hi0 : i = 0 := by
      simpa [BandedSystem.create] using hi
    subst hi0
    norm_num [BandedSystem.create, BandedSystem.entry, BandedSystem.get,
      show Finset.Ico 0 1 = {0} from rfl]
  · intro x
    norm_num [mulVecN, BandedSystem.create, BandedSystem.entry,
      BandedSystem.get, show Finset.range 1 = {0} from rfl]

/-- C5, witness: the strictly row-dominant 1×1 system `A = (2)` with
right-hand side `6`; the solver output satisfies `A·X = B` on row `0`. -/
theorem solve_solves_system_witness :
    mulVecN (((⟨0, 0, 0, fun _ => 0⟩ : BandedSystem).create 1 0 0).set 0 0 2).N
      (((⟨0, 0, 0, fun _ => 0⟩ : BandedSystem).create 1 0 0).set 0 0 2).entry
      (((((⟨0, 0, 0, fun _ => 0⟩ : BandedSystem).create 1 0 0).set 0 0
          2).factorizeLU).solve (fun _ => (6 : ℚ))) 0
      = (fun _ => (6 : ℚ)) 0 :=
  (solve_solves_system
    (((⟨0, 0, 0, fun _ => 0⟩ : BandedSystem).create 1 0 0).set 0 0 2)
    (fun _ => (6 : ℚ))
    (by
      intro i hi1 hi2
      have hi0 : i = 0 := by
        simpa [BandedSystem.create, BandedSystem.set] using hi2
      subst hi0
      norm_num [BandedSystem.create, BandedSystem.entry, BandedSystem.get,
        BandedSystem.set, BandedSystem.offsetOf, inBand,
        Function.update_apply,
        show Finset.Ico 0 1 = {0} from rfl])).1 0 (by decide)

/-- C6, counterexample to the weak reading: the 1×1 zero system is (weakly)
diagonally dominant by columns, yet `Aᵀ·X = B` with `B = (1)` has no
solution at all, so no adjoint-solver output can satisfy the claimed
contract. -/
theorem weak_dominance_solveAdj_impossible :
    (∀ j, j < ((⟨0, 0, 0, fun _ => 0⟩ : BandedSystem).create 1 0 0).N →
      (∑ i ∈ Finset.Ico 0
          ((⟨0, 0, 0, fun _ => 0⟩ : BandedSystem).create 1 0 0).N,
        if i = j then 0
        else |((⟨0, 0, 0, fun _ => 0⟩ : BandedSystem).create 1 0 0).entry i j|)
        ≤ |((⟨0, 0, 0, fun _ => 0⟩ : BandedSystem).create 1 0 0).entry j j|)
    ∧ ∀ x : ℕ → ℚ,
      mulVecN ((⟨0, 0, 0, fun _ => 0⟩ : BandedSystem).create 1 0 0).N
        (fun a b =>
          ((⟨0, 0, 0, fun _ => 0⟩ : BandedSystem).create 1 0 0).entry b a) x 0
        ≠ (1 : ℚ) := by
  constructor
  · intro j hj
    have hj0 : j = 0 := by
      simpa [BandedSystem.create] using hj
    subst hj0
    norm_num [BandedSystem.create, BandedSystem.entry, BandedSystem.get,
      show Finset.Ico 0 1 = {0} from rfl]
  · intro x
    norm_num [mulVecN, BandedSystem.create, BandedSystem.entry,
      BandedSystem.get, show Finset.range 1 = {0} from rfl]

/-- C6, witness: the strictly column-dominant 1×1 system `A = (2)` with
right-hand side `7`; the adjoint-solver output satisfies `Aᵀ·X = B` on
row `0`. -/
theorem solveAdj_solves_transpose_witness :
    mulVecN (((⟨0, 0, 0, fun _ => 0⟩ : BandedSystem).create 1 0 0).set 0 0 2).N
      (fun a b =>
        (((⟨0, 0, 0, fun _ => 0⟩ : BandedSystem).create 1 0 0).set 0 0
          2).entry b a)
      (((((⟨0, 0, 0, fun _ => 0⟩ : BandedSystem).create 1 0 0).set 0 0
          2).factorizeLU).solveAdj (fun _ => (7 : ℚ))) 0
      = (fun _ => (7 : ℚ)) 0 :=
  (solveAdj_solves_transpose
    (((⟨0, 0, 0, fun _ => 0⟩ : BandedSystem).create 1 0 0).set 0 0 2)
    (fun _ => (7 : ℚ))
    (by
      intro j hj1 hj2
      have hj0 : j = 0 := by
        simpa [BandedSystem.create, BandedSystem.set] using hj2
      subst hj0
      norm_num [BandedSystem.create, BandedSystem.entry, BandedSystem.get,
        BandedSystem.set, BandedSystem.offsetOf, inBand,
        Function.update_apply,
        show Finset.Ico 0 1 = {0} from rfl])).1 0 (by decide)
